import Mathlib

/-!
Shallow embedding of the wiremap dependency-injection engine
(`src/wiremap.ts`) and of the block-tree registry construction of the
`wireUp`/`tagBlock` variant, together with theorems checking the
natural-language specification against the code.

Modelling conventions:
* JavaScript objects used as string-keyed maps become association lists
  `List (String × _)`; `obj[k] = v` becomes `objSet` (replace in place,
  keeping the original insertion position, else append), `k in obj` /
  `obj[k]` become `alookup`.
* A unit definition is abstracted to the duck-typing data the engine
  probes: its shape (callable / promise-shaped / plain) and the
  `isFactory` / `isAsync` / `isPrivate` marker properties, plus whether
  it is a native async function, and whether invoking its payload
  throws or rejects (`rejects`).
* Invoking a factory payload yields the symbolic value
  `RVal.callResult d`; a definition used directly as a value is
  `RVal.defVal d`.  `RVal.undef` is JavaScript `undefined`.
* Thrown errors / promise rejections become the structured `DIError`
  type carrying exactly the data interpolated into the source's
  error-message strings.
* The module-level mutable variables (`unitDefinitions`, `unitCache`,
  `takenInjectorsKeys`, `blockPaths`) become the `AppState` record that
  is threaded through every operation.  `invocationLog` is ghost
  instrumentation recording every factory-payload invocation, used to
  state at-most-once invocation properties.
* Asynchronous execution is single-threaded and sequential in the
  source (each factory is awaited in turn), so the async pre-resolution
  pass is embedded as a sequential fold; a promise that rejects is an
  `error` result.
-/

namespace Wiremap

/-- Splits a character list at every occurrence of `c` (JavaScript
`String.prototype.split` with a one-character separator, on the
character level). -/
def splitOnCharList (c : Char) : List Char → List (List Char)
  | [] => [[]]
  | x :: xs =>
    let r := splitOnCharList c xs
    if x = c then [] :: r
    else
      match r with
      | [] => [[x]]
      | h :: t => (x :: h) :: t

/-- JavaScript `s.split(".")`. -/
def jsSplitDot (s : String) : List String :=
  (splitOnCharList '.' s.data).map String.mk

/-- JavaScript `s.startsWith(pre)`. -/
def strStartsWith (s pre : String) : Bool := pre.data.isPrefixOf s.data

/-- Replicates JavaScript property read `m[k]` on an object used as a map. -/
def alookup {α : Type} : List (String × α) → String → Option α
  | [], _ => none
  | (k, v) :: rest, key => if k = key then some v else alookup rest key

/-- Replicates JavaScript property write `m[k] = v`: an existing key keeps
its insertion position and gets the new value, a new key is appended. -/
def objSet {α : Type} : List (String × α) → String → α → List (String × α)
  | [], k, v => [(k, v)]
  | (k', v') :: rest, k, v =>
      if k' = k then (k, v) :: rest else (k', v') :: objSet rest k v

/-- The duck-typing shape of a JavaScript value: callable, promise-shaped
(a `Promise` or a thenable), or anything else. -/
inductive UnitShape where
  | function
  | promiseLike
  | plain
deriving Repr, DecidableEq

/-- The data the engine probes on one unit definition.  `rejects` records
whether invoking the payload throws (synchronously) or rejects (its
promise); a promise-shaped "factory", which is not callable, is
represented with `rejects = true`. -/
structure UnitDef where
  shape : UnitShape
  isFactoryProp : Bool
  isAsyncProp : Bool
  isPrivateProp : Bool
  nativeAsync : Bool
  rejects : Bool
deriving Repr, DecidableEq

/-- A resolved value: a definition used directly as the value, the result
of invoking a factory payload, or JavaScript `undefined`. -/
inductive RVal where
  | defVal (d : UnitDef)
  | callResult (d : UnitDef)
  | undef
deriving Repr, DecidableEq

/-- Structured model of the error strings thrown by the source; each
constructor carries exactly the data interpolated into the message. -/
inductive DIError where
  /-- `Injector for "${parent}" is already in use.` -/
  | injectorInUse (parent : String)
  /-- `Unit ${key} not found from block "${parent}"` -/
  | unitNotFoundFromBlock (key : String) (parent : String)
  /-- `Key "${prop}" not found in block "${namespace}"` -/
  | keyNotFoundInBlock (prop : String) (ns : String)
  /-- `Block tag "${tagName}" does not match key "${finalKey}".` -/
  | blockTagMismatch (tagName : String) (finalKey : String)
  /-- a factory payload threw / its promise rejected; propagated unchanged -/
  | factoryRejected (key : String)
deriving Repr, DecidableEq

/-- Result of an operation that can throw. -/
inductive Res (α : Type) where
  | ok (value : α)
  | error (err : DIError)
deriving Repr, DecidableEq

def Res.isOk {α : Type} : Res α → Bool
  | .ok _ => true
  | .error _ => false

/-- `typeof unit === "function"` -/
def isFunction (u : UnitDef) : Bool := u.shape == .function

/-- `value instanceof Promise || (typeof value === "object" && value !== null && "then" in value && ...)` -/
def isPromise (u : UnitDef) : Bool := u.shape == .promiseLike

/-- `isFactory`: a function or promise carrying `isFactory === true`. -/
def isFactory (u : UnitDef) : Bool :=
  if !isFunction u && !isPromise u then false
  else u.isFactoryProp

/-- `isAsyncFactory`: mirrors the cascade of checks in the source. -/
def isAsyncFactory (u : UnitDef) : Bool :=
  if !isFactory u then false
  else if isPromise u then true
  else if !isFunction u then false
  else if u.isAsyncProp then true
  else u.nativeAsync

/-- `isPrivate`: only a function or promise can be private; the marker on
any other value is ignored. -/
def isPrivate (u : UnitDef) : Bool :=
  if isFunction u || isPromise u then u.isPrivateProp
  else false

/-- `getBlockPaths`: keys with at least one dot, mapped to all segments
but the last, joined by dots. -/
def getBlockPaths (defs : List (String × UnitDef)) : List String :=
  ((defs.map Prod.fst).filter (fun key => (jsSplitDot key).length > 1)).map
    (fun key =>
      let parts := jsSplitDot key
      String.intercalate "." (parts.take (parts.length - 1)))

/-- `hasAsyncKeys`: whether any definition is an async factory. -/
def hasAsyncKeys (list : List (String × UnitDef)) : Bool :=
  (list.map Prod.fst).any (fun key =>
    match alookup list key with
    | some d => isAsyncFactory d
    | none => false)

/-- The module-level mutable state of `wiremap.ts`
(`proxiesCache` lives in `World`, see below).  `invocationLog` is ghost
instrumentation: the ordered list of absolute paths whose factory
payload has been invoked. -/
structure AppState where
  unitDefinitions : List (String × UnitDef)
  unitCache : List (String × RVal)
  takenInjectorsKeys : List String
  blockPaths : List String
  invocationLog : List String
deriving Repr, DecidableEq

/-- `getBlockUnitPaths`: the unit keys visible through a block proxy with
the given `parent` (the accessor's namespace) and `namespace` (the
target block). -/
def getBlockUnitPaths (st : AppState) (parent ns : String) : List String :=
  if ns = "" then
    (st.unitDefinitions.map Prod.fst).filter
      (fun key => (jsSplitDot key).length == 1)
  else if ns = parent then
    (st.unitDefinitions.map Prod.fst).filter
      (fun key =>
        strStartsWith key (ns ++ ".") &&
        (jsSplitDot (key.drop (ns.length + 1))).length == 1)
  else
    (st.unitDefinitions.map Prod.fst).filter
      (fun key =>
        strStartsWith key (ns ++ ".") &&
        (jsSplitDot (key.drop (ns.length + 1))).length == 1 &&
        !(match alookup st.unitDefinitions key with
          | some d => isPrivate d
          | none => false))

/-- A block proxy: the target object is used as a per-proxy cache
(`cachedblock`); `unitKeys` is computed once at construction. -/
structure BlockProxy where
  parent : String
  ns : String
  unitKeys : List String
  cachedblock : List (String × RVal)
deriving Repr, DecidableEq

/-- `createBlockProxy`: computes the visible unit keys and starts with an
empty per-proxy cache. -/
def createBlockProxy (st : AppState) (parent ns : String) : BlockProxy :=
  { parent := parent, ns := ns,
    unitKeys := getBlockUnitPaths st parent ns, cachedblock := [] }

/-- The proxy `get` trap.  Mirrors the source faithfully, including that
on a cache miss the computed `value` is stored in both caches but the
raw definition `def` is what is returned. -/
def proxyGet (st : AppState) (p : BlockProxy) (prop : String) :
    Res RVal × AppState × BlockProxy :=
  match alookup p.cachedblock prop with
  | some v => (.ok v, st, p)
  | none =>
    let finalKey := if p.ns = "" then prop else p.ns ++ "." ++ prop
    if finalKey ∈ p.unitKeys then
      match alookup st.unitCache finalKey with
      | some cachedValue =>
          (.ok cachedValue, st,
           { p with cachedblock := objSet p.cachedblock prop cachedValue })
      | none =>
        match alookup st.unitDefinitions finalKey with
        | some d =>
          if isFactory d then
            -- `value = def()`: the payload is invoked (logged); a throw
            -- propagates before anything is cached
            let st1 := { st with invocationLog := st.invocationLog ++ [finalKey] }
            if d.rejects then (.error (.factoryRejected finalKey), st1, p)
            else
              let value := RVal.callResult d
              (.ok (RVal.defVal d),
               { st1 with unitCache := objSet st1.unitCache finalKey value },
               { p with cachedblock := objSet p.cachedblock prop value })
          else
            let value := RVal.defVal d
            (.ok value,
             { st with unitCache := objSet st.unitCache finalKey value },
             { p with cachedblock := objSet p.cachedblock prop value })
        | none =>
          -- unreachable when `unitKeys ⊆ keys of unitDefinitions`:
          -- JavaScript would read `undefined`
          let value := RVal.undef
          (.ok value,
           { st with unitCache := objSet st.unitCache finalKey value },
           { p with cachedblock := objSet p.cachedblock prop value })
    else
      (.error (.keyNotFoundInBlock prop p.ns), st, p)

/-- An injector produced by `generateInjector`: its namespace and its
`localCache` from block key to the index of the proxy in
`World.blockProxies` (indices model JavaScript object identity). -/
structure Injector where
  parent : String
  localCache : List (String × Nat)
deriving Repr, DecidableEq

/-- `generateInjector`: fails if the namespace is already taken, else
registers it and returns a fresh injector. -/
def generateInjector (st : AppState) (parent : String) :
    Res Injector × AppState :=
  if parent ∈ st.takenInjectorsKeys then (.error (.injectorInUse parent), st)
  else
    (.ok { parent := parent, localCache := [] },
     { st with takenInjectorsKeys := st.takenInjectorsKeys ++ [parent] })

/-- `resolveAsyncFactories`: iterates the keys of `unitDefinitions` in
declaration order and awaits `unitDef()` for every factory-marked
definition (note: the source tests `isFactory`, not `isAsyncFactory`),
stopping at the first rejection. -/
def resolveAsyncGo (st : AppState) : List String → Res Unit × AppState
  | [] => (.ok (), st)
  | key :: rest =>
    match alookup st.unitDefinitions key with
    | some d =>
      if (isFunction d || isPromise d) && isFactory d then
        let st1 := { st with invocationLog := st.invocationLog ++ [key] }
        if d.rejects then (.error (.factoryRejected key), st1)
        else
          resolveAsyncGo
            { st1 with unitCache := objSet st1.unitCache key (RVal.callResult d) }
            rest
      else resolveAsyncGo st rest
    | none => resolveAsyncGo st rest

def resolveAsyncFactories (st : AppState) : Res Unit × AppState :=
  resolveAsyncGo st (st.unitDefinitions.map Prod.fst)

/-- The observable outcome of `wireApp`: the injector synchronously, a
promise that resolved to the injector, a promise that rejected, or a
synchronous throw (unreachable: the fresh taken-keys set is empty). -/
inductive WiredApp where
  | sync (inj : Injector) (st : AppState)
  | asyncOk (inj : Injector) (st : AppState)
  | asyncErr (e : DIError)
  | thrown (e : DIError)
deriving Repr, DecidableEq

/-- `wireApp`: resets the session state, builds the root injector, then
either returns it directly or behind the async pre-resolution pass. -/
def wireApp (defs : List (String × UnitDef)) : WiredApp :=
  let st0 : AppState :=
    { unitDefinitions := defs, unitCache := [],
      takenInjectorsKeys := [], blockPaths := getBlockPaths defs,
      invocationLog := [] }
  match generateInjector st0 "" with
  | (.error e, _) => .thrown e
  | (.ok injector, st1) =>
    if !hasAsyncKeys defs then .sync injector st1
    else
      match resolveAsyncFactories st1 with
      | (.ok _, st2) => .asyncOk injector st2
      | (.error e, _) => .asyncErr e

/-- The whole runtime picture of one wiring session: the module state,
every injector handed out, and an arena of block proxies (JavaScript
object identity becomes an arena index, so that the in-place mutation of
a proxy's `cachedblock` is shared by everyone holding it).
`proxiesCache` is the write-only module-level map of the source. -/
structure World where
  st : AppState
  injectors : List Injector
  blockProxies : List BlockProxy
  proxiesCache : List (String × Nat)
deriving Repr, DecidableEq

/-- The body of the `blockInjector` closure: consult the injector's
`localCache`, else dispatch on the block key (`"."`, `""`, a known block
path, or fail), create the proxy, and record it in both caches.
Returns the arena index of the resulting proxy. -/
def callInjector (w : World) (inj : Injector) (blockKey : Option String) :
    Res Nat × Injector × World :=
  let key := blockKey.getD ""
  match alookup inj.localCache key with
  | some idx => (.ok idx, inj, w)
  | none =>
    let k := key
    let commit := fun (proxy : BlockProxy) =>
      let idx := w.blockProxies.length
      ((.ok idx : Res Nat),
       { inj with localCache := objSet inj.localCache k idx },
       { w with blockProxies := w.blockProxies ++ [proxy],
                proxiesCache := objSet w.proxiesCache k idx })
    if k = "." then
      -- local block resolution, exposes private units
      commit (createBlockProxy w.st inj.parent inj.parent)
    else if k = "" then
      -- root block resolution
      commit (createBlockProxy w.st inj.parent "")
    else if k ∈ w.st.blockPaths then
      -- external block resolution, uses absolute path of the block
      commit (createBlockProxy w.st inj.parent k)
    else
      (.error (.unitNotFoundFromBlock key inj.parent), inj, w)

/-- One observable interaction with the wired session. -/
inductive Op where
  | newInjector (parent : String)
  | callInj (i : Nat) (blockKey : Option String)
  | access (j : Nat) (prop : String)
deriving Repr, DecidableEq

/-- Applies one interaction to the world.  A thrown error mutates nothing
beyond what the source had already written at the throw point. -/
def World.step (w : World) : Op → World
  | .newInjector parent =>
    match generateInjector w.st parent with
    | (.ok inj, st1) => { w with st := st1, injectors := w.injectors ++ [inj] }
    | (.error _, st1) => { w with st := st1 }
  | .callInj i blockKey =>
    match w.injectors.get? i with
    | none => w
    | some inj =>
      match callInjector w inj blockKey with
      | (_, inj1, w1) => { w1 with injectors := w1.injectors.set i inj1 }
  | .access j prop =>
    match w.blockProxies.get? j with
    | none => w
    | some p =>
      match proxyGet w.st p prop with
      | (_, st1, p1) =>
        { w with st := st1, blockProxies := w.blockProxies.set j p1 }

def World.run (w : World) : List Op → World
  | [] => w
  | op :: ops => (w.step op).run ops

/-- The world right after a wiring call that produced a usable injector
(synchronously, or after the async pass resolved). -/
def initialWorld : List (String × UnitDef) → Option World
  | defs =>
    match wireApp defs with
    | .sync inj st => some ⟨st, [inj], [], []⟩
    | .asyncOk inj st => some ⟨st, [inj], [], []⟩
    | _ => none

/-- How many times the factory payload at `key` has been invoked. -/
def countInv (w : World) (key : String) : Nat :=
  w.st.invocationLog.count key

/-- The value (or error) a property read on arena proxy `j` would observe. -/
def accessResult (w : World) (j : Nat) (prop : String) : Res RVal :=
  match w.blockProxies.get? j with
  | some p => (proxyGet w.st p prop).1
  | none => .error (.keyNotFoundInBlock prop "")

/-- The absolute path a property read on arena proxy `j` resolves to. -/
def proxyFinalKey (w : World) (j : Nat) (prop : String) : Option String :=
  (w.blockProxies.get? j).map
    (fun p => if p.ns = "" then prop else p.ns ++ "." ++ prop)

/-- `mockInjection`: swaps in the substitute definitions and block paths,
runs the wrapped callable, and runs the restore assignments only when the
callable returns normally — the source has no try/finally, so a throw
skips them.  (`unitCache` is saved and restored by reference; the cache
object itself is never replaced in between, so that restore is a no-op
and in-place cache writes made during the call survive.) -/
def mockInjection (unit : AppState → Res RVal × AppState)
    (units : List (String × UnitDef)) :
    AppState → Res RVal × AppState :=
  fun st =>
    let oldPublicKeys := st.blockPaths
    let st1 := { st with blockPaths := getBlockPaths units }
    let oldMainDefs := st1.unitDefinitions
    let st2 := { st1 with unitDefinitions := units }
    match unit st2 with
    | (.ok result, st3) =>
      (.ok result,
       { st3 with unitDefinitions := oldMainDefs, blockPaths := oldPublicKeys })
    | (.error e, st3) => (.error e, st3)

end Wiremap

namespace Blocks

/-!
Embedding of the nested-block registry construction of the
`wireUp`/`tagBlock` variant.  A JavaScript module object is either a
block (an object whose `$` export is a block tag — the tag's declared
path is the `tagName` field, and the remaining exports are the
`entries`), a stray block tag, or any other value (a unit).
-/

open Wiremap (UnitDef DIError objSet)

inductive Item where
  | unit (d : UnitDef)
  | tagItem (name : String)
  | block (tagName : String) (entries : List (String × Item))
deriving Repr

/-- `itemIsBlock`: a non-null object whose `$` member is a block tag. -/
def itemIsBlock : Item → Bool
  | .block _ _ => true
  | _ => false

/-- `isBlockTag`: a function carrying the block symbol. -/
def isBlockTag : Item → Bool
  | .tagItem _ => true
  | _ => false

/-- `hasUnits`: the block owns at least one member that is neither a
block tag nor a block. -/
def hasUnits (entries : List (String × Item)) : Bool :=
  entries.any (fun kv =>
    if isBlockTag kv.2 then false else !itemIsBlock kv.2)

/-- `hasBlocks`: the block owns at least one member that is a block. -/
def hasBlocks (entries : List (String × Item)) : Bool :=
  entries.any (fun kv => itemIsBlock kv.2)

/-- `mapBlocks`: walks the entries in order, accumulating the `mapped`
object.  For each block member it derives the structural key
(`prefix ? prefix + "." + key : key`), fails on a tag mismatch, registers
the block when it has units, and merges the recursively mapped
sub-blocks.  `acc` is the `mapped` object being mutated. -/
def mapBlocksGo :
    List (String × Item) → String → List (String × Item) →
    Except DIError (List (String × Item))
  | [], _, acc => .ok acc
  | (key, item) :: rest, pre, acc =>
    match item with
    | .block tagName entries =>
      let finalKey := if pre = "" then key else pre ++ "." ++ key
      if tagName = finalKey then
        let acc1 := if hasUnits entries then objSet acc finalKey item else acc
        if hasBlocks entries then
          match mapBlocksGo entries finalKey [] with
          | .error e => .error e
          | .ok sub => mapBlocksGo rest pre (sub.foldl (fun m kv => objSet m kv.1 kv.2) acc1)
        else mapBlocksGo rest pre acc1
      else .error (.blockTagMismatch tagName finalKey)
    | _ => mapBlocksGo rest pre acc
termination_by blocks _ _ => sizeOf blocks
decreasing_by
  all_goals simp_wf
  all_goals omega

def mapBlocks (blocks : List (String × Item)) (pre : String) :
    Except DIError (List (String × Item)) :=
  mapBlocksGo blocks pre []

/-- Every block in the structure declares exactly the tag path implied by
its structural nesting position. -/
def wellTagged : List (String × Item) → String → Bool
  | [], _ => true
  | (key, item) :: rest, pre =>
    match item with
    | .block tagName entries =>
      let finalKey := if pre = "" then key else pre ++ "." ++ key
      tagName = finalKey && wellTagged entries finalKey && wellTagged rest pre
    | _ => wellTagged rest pre
termination_by blocks _ => sizeOf blocks
decreasing_by
  all_goals simp_wf
  all_goals omega

/-- The structural paths of the blocks that own units — the keys
`mapBlocks` is expected to register. -/
def collectPaths : List (String × Item) → String → List String
  | [], _ => []
  | (key, item) :: rest, pre =>
    match item with
    | .block _ entries =>
      let finalKey := if pre = "" then key else pre ++ "." ++ key
      (if hasUnits entries then [finalKey] else []) ++
        collectPaths entries finalKey ++ collectPaths rest pre
    | _ => collectPaths rest pre
termination_by blocks _ => sizeOf blocks
decreasing_by
  all_goals simp_wf
  all_goals omega



theorem mem_keys_objSet {a : Type} (m : List (String × a)) (k k0 : String)
    (v : a) (h : k ∈ m.map Prod.fst) : k ∈ (objSet m k0 v).map Prod.fst := by
  induction m with
  | nil => simp at h
  | cons hd tl ih =>
    obtain ⟨x, y⟩ := hd
    by_cases hx : x = k0
    · subst hx
      simp only [objSet, if_pos rfl]
      simpa using h
    · simp only [objSet, if_neg hx, List.map_cons, List.mem_cons] at h ⊢
      rcases h with h | h
      · exact Or.inl h
      · exact Or.inr (ih h)

theorem mem_keys_objSet_self {a : Type} (m : List (String × a)) (k0 : String)
    (v : a) : k0 ∈ (objSet m k0 v).map Prod.fst := by
  induction m with
  | nil => simp [objSet]
  | cons hd tl ih =>
    obtain ⟨x, y⟩ := hd
    by_cases hx : x = k0 <;> simp [objSet, hx, ih]

theorem mem_keys_foldl_objSet_left {a : Type} (sub : List (String × a))
    (m : List (String × a)) (k : String) (h : k ∈ m.map Prod.fst) :
    k ∈ (sub.foldl (fun m0 kv => objSet m0 kv.1 kv.2) m).map Prod.fst := by
  induction sub generalizing m with
  | nil => simpa using h
  | cons hd tl ih => exact ih _ (mem_keys_objSet _ _ _ _ h)

theorem mem_keys_foldl_objSet_right {a : Type} (sub : List (String × a))
    (m : List (String × a)) (k : String) (h : k ∈ sub.map Prod.fst) :
    k ∈ (sub.foldl (fun m0 kv => objSet m0 kv.1 kv.2) m).map Prod.fst := by
  induction sub generalizing m with
  | nil => simp at h
  | cons hd tl ih =>
    simp only [List.map_cons, List.mem_cons] at h
    rcases h with rfl | h
    · exact mem_keys_foldl_objSet_left tl _ _ (mem_keys_objSet_self m hd.1 hd.2)
    · exact ih _ h

theorem wellTagged_of_no_blocks (entries : List (String × Item)) (p : String)
    (h : hasBlocks entries = false) : wellTagged entries p = true := by
  induction entries with
  | nil => simp [wellTagged]
  | cons hd tl ih =>
    obtain ⟨k, item⟩ := hd
    cases item with
    | block t e => simp [hasBlocks, itemIsBlock] at h
    | unit d =>
      simp only [hasBlocks, List.any_cons, itemIsBlock, Bool.false_or] at h
      simp [wellTagged, ih h]
    | tagItem n =>
      simp only [hasBlocks, List.any_cons, itemIsBlock, Bool.false_or] at h
      simp [wellTagged, ih h]

theorem collectPaths_of_no_blocks (entries : List (String × Item)) (p : String)
    (h : hasBlocks entries = false) : collectPaths entries p = [] := by
  induction entries with
  | nil => simp [collectPaths]
  | cons hd tl ih =>
    obtain ⟨k, item⟩ := hd
    cases item with
    | block t e => simp [hasBlocks, itemIsBlock] at h
    | unit d =>
      simp only [hasBlocks, List.any_cons, itemIsBlock, Bool.false_or] at h
      simp [collectPaths, ih h]
    | tagItem n =>
      simp only [hasBlocks, List.any_cons, itemIsBlock, Bool.false_or] at h
      simp [collectPaths, ih h]

theorem mapBlocksGo_spec (blocks : List (String × Item)) (pre : String)
    (acc : List (String × Item)) :
    (wellTagged blocks pre = false →
      ∃ t f, mapBlocksGo blocks pre acc
          = .error (.blockTagMismatch t f) ∧ t ≠ f)
    ∧ (wellTagged blocks pre = true →
      ∃ m, mapBlocksGo blocks pre acc = .ok m
        ∧ (∀ k ∈ acc.map Prod.fst, k ∈ m.map Prod.fst)
        ∧ (∀ p ∈ collectPaths blocks pre, p ∈ m.map Prod.fst)) := by
  induction blocks, pre, acc using mapBlocksGo.induct with
  | case1 pre acc =>
    refine ⟨fun hwt => ?_, fun _ => ⟨acc, ?_, fun k hk => hk, ?_⟩⟩
    · simp [wellTagged] at hwt
    · simp [mapBlocksGo]
    · simp [collectPaths]
  | case2 key rest pre acc entries fk hb e herr ih =>
    have hfk : (if pre = "" then key else pre ++ "." ++ key) = fk := rfl
    have hwtE : wellTagged entries fk = false := by
      by_contra hcon
      rw [Bool.not_eq_false] at hcon
      obtain ⟨m, hm, -⟩ := ih.2 hcon
      rw [hm] at herr
      cases herr
    obtain ⟨t, f, htf, hne⟩ := ih.1 hwtE
    constructor
    · intro _
      refine ⟨t, f, ?_, hne⟩
      simp only [mapBlocksGo, hfk]
      simp [hb, htf]
    · intro hwt
      simp only [wellTagged, hfk] at hwt
      simp [hwtE] at hwt
  | case3 key rest pre acc entries fk hb sub hsub acc1 ihE ihR =>
    have hfk : (if pre = "" then key else pre ++ "." ++ key) = fk := rfl
    have hacc1 : (if hasUnits entries = true
        then objSet acc fk (Item.block fk entries) else acc) = acc1 := rfl
    have hwtE : wellTagged entries fk = true := by
      by_contra hcon
      rw [Bool.not_eq_true] at hcon
      obtain ⟨t, f, htf, -⟩ := ihE.1 hcon
      rw [htf] at hsub
      cases hsub
    obtain ⟨msub, hmsub, -, hsubpaths0⟩ := ihE.2 hwtE
    rw [hsub] at hmsub
    have hxs : sub = msub := by
      injection hmsub
    have hsubpaths : ∀ p ∈ collectPaths entries fk, p ∈ sub.map Prod.fst := by
      intro p hp
      rw [hxs]
      exact hsubpaths0 p hp
    have hred : mapBlocksGo ((key, Item.block fk entries) :: rest) pre acc
        = mapBlocksGo rest pre
            (sub.foldl (fun m0 kv => objSet m0 kv.1 kv.2) acc1) := by
      simp only [mapBlocksGo, hfk, hacc1]
      simp [hb, hsub]
    have haccacc1 : ∀ k, k ∈ acc.map Prod.fst → k ∈ acc1.map Prod.fst := by
      intro k hk
      rw [← hacc1]
      by_cases hu : hasUnits entries = true
      · simp only [if_pos hu]
        exact mem_keys_objSet _ _ _ _ hk
      · simpa [hu] using hk
    constructor
    · intro hwt
      have hwtR : wellTagged rest pre = false := by
        simp only [wellTagged, hfk] at hwt
        simpa [hwtE] using hwt
      obtain ⟨t, f, htf, hne⟩ := ihR.1 hwtR
      exact ⟨t, f, hred ▸ htf, hne⟩
    · intro hwt
      have hwtR : wellTagged rest pre = true := by
        simp only [wellTagged, hfk] at hwt
        simpa [hwtE] using hwt
      obtain ⟨m, hm, hkeys, hpaths⟩ := ihR.2 hwtR
      refine ⟨m, hred ▸ hm, ?_, ?_⟩
      · intro k hk
        exact hkeys k (mem_keys_foldl_objSet_left _ _ _ (haccacc1 k hk))
      · intro p hp
        simp only [collectPaths, hfk, List.mem_append] at hp
        rcases hp with (hp | hp) | hp
        · by_cases hu : hasUnits entries = true
          · simp only [if_pos hu, List.mem_singleton] at hp
            subst hp
            refine hkeys fk (mem_keys_foldl_objSet_left _ _ _ ?_)
            rw [← hacc1]
            simp only [if_pos hu]
            exact mem_keys_objSet_self _ _ _
          · simp [hu] at hp
        · exact hkeys p
            (mem_keys_foldl_objSet_right _ _ _ (hsubpaths p hp))
        · exact hpaths p hp
  | case4 key rest pre acc entries fk hb acc1 ihR =>
    have hfk : (if pre = "" then key else pre ++ "." ++ key) = fk := rfl
    have hacc1 : (if hasUnits entries = true
        then objSet acc fk (Item.block fk entries) else acc) = acc1 := rfl
    have hbf : hasBlocks entries = false := by
      simpa using hb
    have hwtE : wellTagged entries fk = true :=
      wellTagged_of_no_blocks entries fk hbf
    have hred : mapBlocksGo ((key, Item.block fk entries) :: rest) pre acc
        = mapBlocksGo rest pre acc1 := by
      simp only [mapBlocksGo, hfk, hacc1]
      simp [hbf]
    have haccacc1 : ∀ k, k ∈ acc.map Prod.fst → k ∈ acc1.map Prod.fst := by
      intro k hk
      rw [← hacc1]
      by_cases hu : hasUnits entries = true
      · simp only [if_pos hu]
        exact mem_keys_objSet _ _ _ _ hk
      · simpa [hu] using hk
    constructor
    · intro hwt
      have hwtR : wellTagged rest pre = false := by
        simp only [wellTagged, hfk] at hwt
        simpa [hwtE] using hwt
      obtain ⟨t, f, htf, hne⟩ := ihR.1 hwtR
      exact ⟨t, f, hred ▸ htf, hne⟩
    · intro hwt
      have hwtR : wellTagged rest pre = true := by
        simp only [wellTagged, hfk] at hwt
        simpa [hwtE] using hwt
      obtain ⟨m, hm, hkeys, hpaths⟩ := ihR.2 hwtR
      refine ⟨m, hred ▸ hm, fun k hk => hkeys k (haccacc1 k hk), ?_⟩
      intro p hp
      simp only [collectPaths, hfk, List.mem_append,
        collectPaths_of_no_blocks entries fk hbf] at hp
      rcases hp with (hp | hp) | hp
      · by_cases hu : hasUnits entries = true
        · simp only [if_pos hu, List.mem_singleton] at hp
          subst hp
          refine hkeys fk ?_
          rw [← hacc1]
          simp only [if_pos hu]
          exact mem_keys_objSet_self _ _ _
        · simp [hu] at hp
      · simp at hp
      · exact hpaths p hp
  | case5 key rest pre acc tagName entries fk hne =>
    have hfk : (if pre = "" then key else pre ++ "." ++ key) = fk := rfl
    constructor
    · intro _
      refine ⟨tagName, fk, ?_, hne⟩
      simp only [mapBlocksGo, hfk]
      simp [hne]
    · intro hwt
      simp only [wellTagged, hfk] at hwt
      simp [hne] at hwt
  | case6 key item rest pre acc hnb ihR =>
    cases item with
    | block t e => exact absurd rfl (hnb t e)
    | unit d =>
      simpa [mapBlocksGo, wellTagged, collectPaths] using ihR
    | tagItem n =>
      simpa [mapBlocksGo, wellTagged, collectPaths] using ihR

/-- C6: during registry construction over the nested block structure, a
block whose declared tag path differs from the path implied by its
structural nesting position (parent keys joined by dots) makes
`mapBlocks` fail with the error carrying both the declared and the
expected path — `mapBlocks` is pure, so construction fails before any
resolution is attempted; when every declared tag matches its position,
construction succeeds and every block owning units is registered under
its structural path. -/
theorem c6_tag_mismatch_fails_and_matching_registers
    (blocks : List (String × Item)) (pre : String) :
    (wellTagged blocks pre = false →
      ∃ t f, mapBlocks blocks pre
          = .error (.blockTagMismatch t f) ∧ t ≠ f)
    ∧ (wellTagged blocks pre = true →
      ∃ m, mapBlocks blocks pre = .ok m
        ∧ ∀ p ∈ collectPaths blocks pre, p ∈ m.map Prod.fst) := by
  have h := mapBlocksGo_spec blocks pre []
  exact ⟨h.1, fun hwt =>
    (h.2 hwt).elim (fun m hm => ⟨m, hm.1, hm.2.2⟩)⟩

theorem c6_witness :
    (wellTagged
        [("a", Item.block "b" [("x", Item.unit ⟨.plain, false, false, false, false, false⟩)])] "" = false
      ∧ ∃ t f, mapBlocks
          [("a", Item.block "b" [("x", Item.unit ⟨.plain, false, false, false, false, false⟩)])] ""
          = .error (.blockTagMismatch t f) ∧ t ≠ f)
    ∧ (wellTagged
        [("a", Item.block "a" [("x", Item.unit ⟨.plain, false, false, false, false, false⟩)])] "" = true
      ∧ ∃ m, mapBlocks
          [("a", Item.block "a" [("x", Item.unit ⟨.plain, false, false, false, false, false⟩)])] ""
          = .ok m
          ∧ ∀ p ∈ collectPaths
              [("a", Item.block "a" [("x", Item.unit ⟨.plain, false, false, false, false, false⟩)])] "",
              p ∈ m.map Prod.fst) :=
  ⟨⟨by simp [wellTagged],
    (c6_tag_mismatch_fails_and_matching_registers _ "").1
      (by simp [wellTagged])⟩,
   ⟨by simp [wellTagged],
    (c6_tag_mismatch_fails_and_matching_registers _ "").2
      (by simp [wellTagged])⟩⟩

end Blocks

namespace Wiremap

/-! Concrete sample definitions used to evaluate the embedding. -/

/-- A synchronous factory: a function with `isFactory = true`. -/
def facU : UnitDef := ⟨.function, true, false, false, false, false⟩

/-- An async factory: a function with `isFactory = true` and `isAsync = true`. -/
def asyncFacU : UnitDef := ⟨.function, true, true, false, false, false⟩

/-- A plain (non-callable, non-promise) value. -/
def plainU : UnitDef := ⟨.plain, false, false, false, false, false⟩

/-- A private plain function unit. -/
def privFnU : UnitDef := ⟨.function, false, false, true, false, false⟩

/-- A public plain function unit. -/
def pubFnU : UnitDef := ⟨.function, false, false, false, false, false⟩

/-- A plain value carrying an (ignored) `isPrivate: true` property. -/
def privPlainU : UnitDef := ⟨.plain, false, false, true, false, false⟩

/-- The session state produced by `wireApp [("a", facU)]`. -/
def wiredSt1 : AppState := ⟨[("a", facU)], [], [""], [], []⟩

/-- The session state produced by `wireApp [("s", facU), ("a", asyncFacU)]`. -/
def wiredSt8 : AppState :=
  ⟨[("s", facU), ("a", asyncFacU)],
   [("s", .callResult facU), ("a", .callResult asyncFacU)], [""], [], ["s", "a"]⟩

/-- Substitute definitions handed to `mockInjection`. -/
def units9 : List (String × UnitDef) := [("b.x", facU)]

/-- A session state active before a `mockInjection` call. -/
def st9 : AppState := ⟨[("orig", plainU)], [], [], [], []⟩

/-- C1: the claim says a first (non-cached) access to a synchronous
factory unit through a block proxy returns the factory's return value —
the value stored in the resolution cache — and that cached and non-cached
resolutions agree.  The code instead executes `return def`: it invokes
the factory and stores the return value in both caches, but hands the
factory callable itself back to the first reader, so the first read and
every later (cached) read of the same path return different values.
This theorem evaluates the code on one factory unit `"a"` and exhibits
the divergence. -/
theorem c1_first_access_returns_def_not_value :
    wireApp [("a", facU)] = .sync ⟨"", []⟩ wiredSt1
    ∧ (proxyGet wiredSt1 (createBlockProxy wiredSt1 "" "") "a").1
        = .ok (.defVal facU)
    ∧ alookup
        (proxyGet wiredSt1 (createBlockProxy wiredSt1 "" "") "a").2.1.unitCache
        "a" = some (.callResult facU)
    ∧ (proxyGet (proxyGet wiredSt1 (createBlockProxy wiredSt1 "" "") "a").2.1
         (proxyGet wiredSt1 (createBlockProxy wiredSt1 "" "") "a").2.2
         "a").1 = .ok (.callResult facU)
    ∧ RVal.defVal facU ≠ RVal.callResult facU := by
  decide

/-- C7: once `generateInjector` has been called for a namespace path, a
second invocation for the same path within the same session throws the
"already in use" error (and leaves the state unchanged), so at most one
injector is constructed per distinct namespace path per wiring session. -/
theorem c7_second_injector_for_same_path_fails
    (st st1 : AppState) (parent : String) (inj : Injector)
    (h : generateInjector st parent = (.ok inj, st1)) :
    generateInjector st1 parent = (.error (.injectorInUse parent), st1) := by
  unfold generateInjector at h ⊢
  by_cases hmem : parent ∈ st.takenInjectorsKeys
  · simp [hmem] at h
  · simp [hmem] at h
    obtain ⟨-, h2⟩ := h
    subst h2
    simp

theorem c7_witness :
    generateInjector ⟨[], [], ["x"], [], []⟩ "x"
      = (.error (.injectorInUse "x"), ⟨[], [], ["x"], [], []⟩) :=
  c7_second_injector_for_same_path_fails ⟨[], [], [], [], []⟩ _ "x" ⟨"x", []⟩
    (by decide)

/-- C8: the claim says that synchronous factories are resolved lazily on
first access even when async factories are present, and that only
async-factory units are resolved during the pre-resolution pass.  The
pre-resolution pass (`resolveAsyncFactories`) actually tests `isFactory`,
not `isAsyncFactory`, so as soon as one async factory exists it eagerly
invokes and caches every synchronous factory as well — contradicting the
code's own README ("Unlike regular factories which are resolved lazily on
first access, async factories are resolved immediately").  This theorem
evaluates wiring of one sync factory `"s"` plus one async factory `"a"`:
before any access, `"s"` has already been invoked and cached. -/
theorem c8_sync_factory_invoked_eagerly_when_async_present :
    hasAsyncKeys [("s", facU), ("a", asyncFacU)] = true
    ∧ isAsyncFactory facU = false
    ∧ wireApp [("s", facU), ("a", asyncFacU)] = .asyncOk ⟨"", []⟩ wiredSt8
    ∧ alookup wiredSt8.unitCache "s" = some (.callResult facU)
    ∧ wiredSt8.invocationLog.count "s" = 1 := by
  decide

/-- A successful `alookup` means the key occurs among the keys. -/
theorem alookup_some_mem_keys {α : Type} (l : List (String × α)) (k : String)
    (v : α) (h : alookup l k = some v) : k ∈ l.map Prod.fst := by
  induction l with
  | nil => simp [alookup] at h
  | cons hd tl ih =>
    obtain ⟨a, b⟩ := hd
    by_cases hk : a = k
    · subst hk
      simp
    · simp only [alookup, if_neg hk] at h
      simpa using Or.inr (ih h)

/-- Membership in `getBlockPaths`: `k` is the immediate parent path
(all dot-segments but the last) of at least one defined key. -/
theorem mem_getBlockPaths_iff (defs : List (String × UnitDef)) (k : String) :
    k ∈ getBlockPaths defs ↔
      ∃ key, key ∈ defs.map Prod.fst ∧ (jsSplitDot key).length > 1 ∧
        String.intercalate "."
          ((jsSplitDot key).take ((jsSplitDot key).length - 1)) = k := by
  simp only [getBlockPaths, List.mem_map, List.mem_filter,
    decide_eq_true_eq]
  constructor
  · rintro ⟨key, ⟨hmem, hlen⟩, hk⟩
    exact ⟨key, hmem, hlen, hk⟩
  · rintro ⟨key, hmem, hlen, hk⟩
    exact ⟨key, ⟨hmem, hlen⟩, hk⟩

/-- On a fresh proxy, a visible key whose definition does not throw
resolves successfully. -/
theorem proxyGet_ok_of_visible (st : AppState) (p : BlockProxy) (prop : String)
    (d : UnitDef) (hcb : p.cachedblock = [])
    (hfk : (if p.ns = "" then prop else p.ns ++ "." ++ prop) ∈ p.unitKeys)
    (hd : alookup st.unitDefinitions
        (if p.ns = "" then prop else p.ns ++ "." ++ prop) = some d)
    (hrej : isFactory d = true → d.rejects = false) :
    (proxyGet st p prop).1.isOk = true := by
  unfold proxyGet
  simp only [hcb, alookup]
  simp only [if_pos hfk]
  cases hc : alookup st.unitCache (if p.ns = "" then prop else p.ns ++ "." ++ prop) with
  | some cachedValue => simp [Res.isOk]
  | none =>
    simp only [hc, hd]
    by_cases hf : isFactory d
    · simp [hf, hrej hf, Res.isOk]
    · simp [hf, Res.isOk]

/-- C5: calling a block injector with a request string other than `""`
and `"."` succeeds (returning a freshly constructed namespace proxy) if
and only if the request is the immediate parent path of at least one
defined unit key; otherwise it throws the error carrying both the
requested key and the caller's namespace. -/
theorem c5_block_request_iff_parent_of_some_unit
    (w : World) (inj : Injector) (k : String)
    (hfresh : inj.localCache = [])
    (hk1 : k ≠ "") (hk2 : k ≠ ".")
    (hbp : w.st.blockPaths = getBlockPaths w.st.unitDefinitions) :
    ((callInjector w inj (some k)).1.isOk = true ↔
      ∃ key, key ∈ w.st.unitDefinitions.map Prod.fst ∧
        (jsSplitDot key).length > 1 ∧
        String.intercalate "."
          ((jsSplitDot key).take ((jsSplitDot key).length - 1)) = k)
    ∧ (k ∉ w.st.blockPaths →
        (callInjector w inj (some k)).1
          = .error (.unitNotFoundFromBlock k inj.parent))
    ∧ (k ∈ w.st.blockPaths →
        (callInjector w inj (some k)).1 = .ok w.blockProxies.length ∧
        (callInjector w inj (some k)).2.2.blockProxies
          = w.blockProxies ++ [createBlockProxy w.st inj.parent k]) := by
  by_cases hmem : k ∈ w.st.blockPaths
  · refine ⟨?_, fun h => absurd hmem h, fun _ => ?_⟩
    · constructor
      · intro _
        exact (mem_getBlockPaths_iff _ _).mp (hbp ▸ hmem)
      · intro _
        unfold callInjector
        simp [hfresh, alookup, hk1, hk2, hmem, Res.isOk]
    · unfold callInjector
      simp [hfresh, alookup, hk1, hk2, hmem]
  · refine ⟨?_, fun _ => ?_, fun h => absurd h hmem⟩
    · constructor
      · intro hok
        exfalso
        unfold callInjector at hok
        simp [hfresh, alookup, hk1, hk2, hmem, Res.isOk] at hok
      · intro hex
        exact absurd ((mem_getBlockPaths_iff _ _).mpr hex) (hbp ▸ hmem)
    · unfold callInjector
      simp [hfresh, alookup, hk1, hk2, hmem]

theorem c5_witness :
    (((callInjector ⟨⟨[("n.x", plainU)], [], [], ["n"], []⟩, [], [], []⟩
        ⟨"b", []⟩ (some "n")).1.isOk = true)
      ↔ (∃ key, key ∈ [("n.x", plainU)].map Prod.fst ∧
          (jsSplitDot key).length > 1 ∧
          String.intercalate "."
            ((jsSplitDot key).take ((jsSplitDot key).length - 1)) = "n")) ∧
    ("q" ∉ (["n"] : List String) →
      (callInjector ⟨⟨[("n.x", plainU)], [], [], ["n"], []⟩, [], [], []⟩
        ⟨"b", []⟩ (some "q")).1
        = .error (.unitNotFoundFromBlock "q" "b")) :=
  ⟨(c5_block_request_iff_parent_of_some_unit
      ⟨⟨[("n.x", plainU)], [], [], ["n"], []⟩, [], [], []⟩ ⟨"b", []⟩ "n"
      rfl (by decide) (by decide) (by decide)).1,
   (c5_block_request_iff_parent_of_some_unit
      ⟨⟨[("n.x", plainU)], [], [], ["n"], []⟩, [], [], []⟩ ⟨"b", []⟩ "q"
      rfl (by decide) (by decide) (by decide)).2.1⟩

/-- C10: the private marker is honored only on callable or promise-shaped
definitions: a plain (non-callable, non-promise) unit is never private,
is listed among the externally visible unit keys of its block even from a
foreign namespace, and resolves successfully there — even if it carries
an `isPrivate: true` property. -/
theorem c10_plain_value_never_private
    (st : AppState) (N M u : String) (d : UnitDef)
    (hshape : d.shape = .plain)
    (hN : N ≠ "") (hMN : N ≠ M)
    (hd : alookup st.unitDefinitions (N ++ "." ++ u) = some d)
    (hsw : strStartsWith (N ++ "." ++ u) (N ++ ".") = true)
    (hlen : (jsSplitDot ((N ++ "." ++ u).drop (N.length + 1))).length = 1) :
    isPrivate d = false
    ∧ (N ++ "." ++ u) ∈ getBlockUnitPaths st M N
    ∧ (proxyGet st (createBlockProxy st M N) u).1.isOk = true := by
  have hpriv : isPrivate d = false := by
    simp [isPrivate, isFunction, isPromise, hshape]
  have hmem0 : (N ++ "." ++ u) ∈ st.unitDefinitions.map Prod.fst :=
    alookup_some_mem_keys _ _ _ hd
  have hmem : (N ++ "." ++ u) ∈ getBlockUnitPaths st M N := by
    unfold getBlockUnitPaths
    simp only [if_neg hN, if_neg hMN, List.mem_filter]
    refine ⟨hmem0, ?_⟩
    simp [hsw, hlen, hd, hpriv]
  refine ⟨hpriv, hmem, ?_⟩
  exact proxyGet_ok_of_visible st _ u d rfl
    (by simpa [createBlockProxy, if_neg hN] using hmem)
    (by simpa [createBlockProxy, if_neg hN] using hd)
    (fun hf => by simp [isFactory, isFunction, isPromise, hshape] at hf)

theorem c10_witness :
    isPrivate privPlainU = false
    ∧ ("n" ++ "." ++ "v") ∈
        getBlockUnitPaths ⟨[("n.v", privPlainU)], [], [], [], []⟩ "b" "n"
    ∧ (proxyGet ⟨[("n.v", privPlainU)], [], [], [], []⟩
        (createBlockProxy ⟨[("n.v", privPlainU)], [], [], [], []⟩ "b" "n")
        "v").1.isOk = true :=
  c10_plain_value_never_private ⟨[("n.v", privPlainU)], [], [], [], []⟩
    "n" "b" "v" privPlainU rfl (by decide) (by decide) (by decide)
    (by decide) (by decide)

/-- Reading back through `objSet`: the written key has the new value,
every other key is untouched. -/
theorem alookup_objSet {α : Type} (m : List (String × α)) (k k' : String)
    (v : α) :
    alookup (objSet m k v) k' = if k = k' then some v else alookup m k' := by
  induction m with
  | nil =>
    by_cases hk : k = k' <;> simp [objSet, alookup, hk]
  | cons hd tl ih =>
    obtain ⟨a, b⟩ := hd
    by_cases ha : a = k
    · subst ha
      by_cases hk : a = k' <;> simp [objSet, alookup, hk]
    · by_cases hk : a = k'
      · subst hk
        have : ¬k = a := fun hcontra => ha hcontra.symm
        simp [objSet, alookup, ha, this]
      · simp [objSet, alookup, ha, hk, ih]

/-- The first entry found by `alookup` is a member of the list. -/
theorem mem_of_alookup_some {α : Type} (l : List (String × α)) (k : String)
    (v : α) (h : alookup l k = some v) : (k, v) ∈ l := by
  induction l with
  | nil => simp [alookup] at h
  | cons hd tl ih =>
    obtain ⟨a, b⟩ := hd
    by_cases ha : a = k
    · subst ha
      simp [alookup] at h
      simp [h]
    · simp only [alookup, if_neg ha] at h
      exact List.mem_cons_of_mem _ (ih h)

/-- With unique keys, membership determines the `alookup` result. -/
theorem alookup_eq_of_mem_nodup {α : Type} (l : List (String × α))
    (hn : (l.map Prod.fst).Nodup) (k : String) (v : α) (hm : (k, v) ∈ l) :
    alookup l k = some v := by
  induction l with
  | nil => simp at hm
  | cons hd tl ih =>
    obtain ⟨a, b⟩ := hd
    simp only [List.map_cons, List.nodup_cons] at hn
    rcases List.mem_cons.mp hm with heq | htl
    · obtain ⟨rfl, rfl⟩ := Prod.mk.injEq .. ▸ heq
      simp [alookup]
    · by_cases ha : a = k
      · subst ha
        exact absurd (List.mem_map.mpr ⟨(a, v), htl, rfl⟩) hn.1
      · simp only [alookup, if_neg ha]
        exact ih hn.2 htl

/-- An async factory passes the factory test of the pre-resolution pass. -/
theorem factory_pred_of_asyncFactory (d : UnitDef)
    (h : isAsyncFactory d = true) :
    ((isFunction d || isPromise d) && isFactory d) = true := by
  rcases d with ⟨shape, f, a, p, na, rj⟩
  cases shape <;> simp_all [isAsyncFactory, isFactory, isFunction, isPromise]

/-- Full description of a successful pre-resolution pass: it succeeds, it
touches only the cache and the invocation log, it invokes exactly the
factory-marked keys in declaration order, and it caches the invocation
result of every factory-marked key it visited. -/
theorem resolveAsyncGo_spec (ks : List String) (st : AppState)
    (h : ∀ k ∈ ks, ∀ d, alookup st.unitDefinitions k = some d →
        ((isFunction d || isPromise d) && isFactory d) = true →
        d.rejects = false) :
    (resolveAsyncGo st ks).1 = .ok ()
    ∧ (resolveAsyncGo st ks).2.unitDefinitions = st.unitDefinitions
    ∧ (resolveAsyncGo st ks).2.invocationLog
        = st.invocationLog ++ ks.filter (fun k =>
            match alookup st.unitDefinitions k with
            | some d => (isFunction d || isPromise d) && isFactory d
            | none => false)
    ∧ (∀ k, alookup (resolveAsyncGo st ks).2.unitCache k
          = alookup st.unitCache k
        ∨ ∃ d, alookup st.unitDefinitions k = some d
            ∧ ((isFunction d || isPromise d) && isFactory d) = true
            ∧ alookup (resolveAsyncGo st ks).2.unitCache k
                = some (.callResult d))
    ∧ (∀ k d, alookup st.unitDefinitions k = some d →
        ((isFunction d || isPromise d) && isFactory d) = true → k ∈ ks →
        alookup (resolveAsyncGo st ks).2.unitCache k
          = some (.callResult d)) := by
  induction ks generalizing st with
  | nil =>
    refine ⟨rfl, rfl, by simp [resolveAsyncGo], fun k => Or.inl rfl, ?_⟩
    intro k d _ _ hk
    simp at hk
  | cons k0 rest ih =>
    cases hd0 : alookup st.unitDefinitions k0 with
    | none =>
      have heq : resolveAsyncGo st (k0 :: rest) = resolveAsyncGo st rest := by
        simp only [resolveAsyncGo, hd0]
      have hrec := ih st (fun k hk => h k (List.mem_cons_of_mem _ hk))
      refine ⟨heq ▸ hrec.1, heq ▸ hrec.2.1, ?_, heq ▸ hrec.2.2.2.1, ?_⟩
      · rw [heq, hrec.2.2.1]
        simp [hd0]
      · intro k d hdk hpk hkmem
        rcases List.mem_cons.mp hkmem with rfl | htl
        · rw [hdk] at hd0
          exact absurd hd0 (by simp)
        · exact heq ▸ hrec.2.2.2.2 k d hdk hpk htl
    | some d0 =>
      by_cases hp : ((isFunction d0 || isPromise d0) && isFactory d0) = true
      · have hrej : d0.rejects = false :=
          h k0 (List.mem_cons_self _ _) d0 hd0 hp
        have heq : resolveAsyncGo st (k0 :: rest)
            = resolveAsyncGo
                { st with
                  invocationLog := st.invocationLog ++ [k0],
                  unitCache :=
                    objSet st.unitCache k0 (RVal.callResult d0) } rest := by
          simp only [resolveAsyncGo, hd0, hp, hrej]
          simp
        set st1 : AppState :=
          { st with
            invocationLog := st.invocationLog ++ [k0],
            unitCache := objSet st.unitCache k0 (RVal.callResult d0) } with hst1
        have hdefs1 : st1.unitDefinitions = st.unitDefinitions := rfl
        have hrec := ih st1 (fun k hk d hdk hpk =>
          h k (List.mem_cons_of_mem _ hk) d (hdefs1 ▸ hdk) hpk)
        refine ⟨heq ▸ hrec.1, heq ▸ hrec.2.1, ?_, ?_, ?_⟩
        · rw [heq, hrec.2.2.1]
          simp [hst1, hd0, hp, List.append_assoc]
        · intro k
          rcases hrec.2.2.2.1 k with hleft | ⟨d, hdk, hpk, hck⟩
          · by_cases hk0 : k0 = k
            · subst hk0
              refine Or.inr ⟨d0, hd0, hp, ?_⟩
              rw [heq, hleft]
              simp [hst1, alookup_objSet]
            · refine Or.inl ?_
              rw [heq, hleft]
              simp [hst1, alookup_objSet, hk0]
          · exact Or.inr ⟨d, hdefs1 ▸ hdk, hpk, heq ▸ hck⟩
        · intro k d hdk hpk hkmem
          rcases List.mem_cons.mp hkmem with rfl | htl
          · rw [hdk] at hd0
            obtain rfl : d = d0 := by
              injection hd0
            rcases hrec.2.2.2.1 k with hleft | ⟨d', hd', _, hc'⟩
            · rw [heq, hleft]
              simp [hst1, alookup_objSet]
            · rw [hdefs1] at hd'
              rw [hdk] at hd'
              obtain rfl : d' = d := by
                injection hd' with hv
                exact hv.symm
              exact heq ▸ hc'
          · exact heq ▸ hrec.2.2.2.2 k d (hdefs1 ▸ hdk) hpk htl
      · have heq : resolveAsyncGo st (k0 :: rest) = resolveAsyncGo st rest := by
          simp only [resolveAsyncGo, hd0]
          simp [hp]
        have hrec := ih st (fun k hk => h k (List.mem_cons_of_mem _ hk))
        refine ⟨heq ▸ hrec.1, heq ▸ hrec.2.1, ?_, heq ▸ hrec.2.2.2.1, ?_⟩
        · rw [heq, hrec.2.2.1]
          simp [hd0, hp]
        · intro k d hdk hpk hkmem
          rcases List.mem_cons.mp hkmem with rfl | htl
          · rw [hdk] at hd0
            obtain rfl : d = d0 := by
              injection hd0
            exact absurd hpk hp
          · exact heq ▸ hrec.2.2.2.2 k d hdk hpk htl

/-- If some factory-marked key in the list rejects, the pre-resolution
pass fails. -/
theorem resolveAsyncGo_err (ks : List String) (st : AppState)
    (h : ∃ k ∈ ks, ∃ d, alookup st.unitDefinitions k = some d ∧
        ((isFunction d || isPromise d) && isFactory d) = true ∧
        d.rejects = true) :
    ∃ e, (resolveAsyncGo st ks).1 = .error e := by
  induction ks generalizing st with
  | nil => simp at h
  | cons k0 rest ih =>
    obtain ⟨k, hkmem, d, hdk, hpk, hrej⟩ := h
    cases hd0 : alookup st.unitDefinitions k0 with
    | none =>
      have heq : resolveAsyncGo st (k0 :: rest) = resolveAsyncGo st rest := by
        simp only [resolveAsyncGo, hd0]
      rcases List.mem_cons.mp hkmem with rfl | htl
      · rw [hdk] at hd0
        exact absurd hd0 (by simp)
      · exact heq ▸ ih st ⟨k, htl, d, hdk, hpk, hrej⟩
    | some d0 =>
      by_cases hp : ((isFunction d0 || isPromise d0) && isFactory d0) = true
      · by_cases hr : d0.rejects = true
        · refine ⟨.factoryRejected k0, ?_⟩
          simp only [resolveAsyncGo, hd0]
          simp [hp, hr]
        · have heq : resolveAsyncGo st (k0 :: rest)
              = resolveAsyncGo
                  { st with
                    invocationLog := st.invocationLog ++ [k0],
                    unitCache :=
                      objSet st.unitCache k0 (RVal.callResult d0) } rest := by
            simp only [resolveAsyncGo, hd0]
            simp [hp, hr]
          rcases List.mem_cons.mp hkmem with rfl | htl
          · rw [hdk] at hd0
            obtain rfl : d = d0 := by
              injection hd0
            exact absurd hrej hr
          · exact heq ▸ ih _ ⟨k, htl, d, hdk, hpk, hrej⟩
      · have heq : resolveAsyncGo st (k0 :: rest) = resolveAsyncGo st rest := by
          simp only [resolveAsyncGo, hd0]
          simp [hp]
        rcases List.mem_cons.mp hkmem with rfl | htl
        · rw [hdk] at hd0
          obtain rfl : d = d0 := by
            injection hd0
          exact absurd hpk hp
        · exact heq ▸ ih st ⟨k, htl, d, hdk, hpk, hrej⟩

/-- With unique keys, filtering the key list through an `alookup`-based
predicate agrees with filtering the entries directly. -/
theorem keys_filter_eq_entries_filter (defs : List (String × UnitDef))
    (hnodup : (defs.map Prod.fst).Nodup) :
    (defs.map Prod.fst).filter (fun k =>
        match alookup defs k with
        | some d => (isFunction d || isPromise d) && isFactory d
        | none => false)
      = (defs.filter (fun kd =>
          (isFunction kd.2 || isPromise kd.2) && isFactory kd.2)).map
          Prod.fst := by
  induction defs with
  | nil => rfl
  | cons hd tl ih =>
    obtain ⟨a, b⟩ := hd
    simp only [List.map_cons, List.nodup_cons] at hnodup
    have htail : List.filter (fun k =>
        match alookup ((a, b) :: tl) k with
        | some d => (isFunction d || isPromise d) && isFactory d
        | none => false) (tl.map Prod.fst)
        = List.filter (fun k =>
            match alookup tl k with
            | some d => (isFunction d || isPromise d) && isFactory d
            | none => false) (tl.map Prod.fst) := by
      apply List.filter_congr
      intro k hk
      have hak : ¬a = k := fun hcontra => hnodup.1 (hcontra ▸ hk)
      simp [alookup, hak]
    have hhead : (match alookup ((a, b) :: tl) a with
        | some d => (isFunction d || isPromise d) && isFactory d
        | none => false) = ((isFunction b || isPromise b) && isFactory b) := by
      simp [alookup]
    by_cases hb : ((isFunction b || isPromise b) && isFactory b) = true
    · rw [List.map_cons, List.filter_cons, List.filter_cons, hhead, htail,
        ih hnodup.2]
      simp [hb]
    · rw [List.map_cons, List.filter_cons, List.filter_cons, hhead, htail,
        ih hnodup.2]
      simp [hb]

/-- C4: `wireApp` returns the root injector directly when the definitions
contain no async-factory unit; with at least one, it returns a promise:
on success that promise settles only after the pre-resolution pass has
invoked and awaited the factories one at a time in declaration order
(the invocation log lists exactly the factory-marked keys in that order,
which includes every async factory) and cached each settled value at its
absolute path; if any async factory's payload rejects, the promise
rejects and no injector is produced. -/
theorem c4_wireApp_sync_async_duality (defs : List (String × UnitDef))
    (hnodup : (defs.map Prod.fst).Nodup) :
    (hasAsyncKeys defs = false →
      ∃ inj st, wireApp defs = .sync inj st
        ∧ st.invocationLog = [] ∧ st.unitCache = [])
    ∧ (hasAsyncKeys defs = true →
        ((∀ kd ∈ defs,
            ((isFunction kd.2 || isPromise kd.2) && isFactory kd.2) = true →
            kd.2.rejects = false) →
          ∃ inj st, wireApp defs = .asyncOk inj st
            ∧ (∀ kd ∈ defs, isAsyncFactory kd.2 = true →
                alookup st.unitCache kd.1 = some (.callResult kd.2))
            ∧ st.invocationLog
                = (defs.filter (fun kd =>
                    (isFunction kd.2 || isPromise kd.2) && isFactory kd.2)).map
                    Prod.fst)
        ∧ ((∃ kd ∈ defs, isAsyncFactory kd.2 = true ∧ kd.2.rejects = true) →
            ∃ e, wireApp defs = .asyncErr e)) := by
  have hst1 : generateInjector
      ⟨defs, [], [], getBlockPaths defs, []⟩ ""
      = (.ok ⟨"", []⟩, ⟨defs, [], [""], getBlockPaths defs, []⟩) := by
    simp [generateInjector]
  constructor
  · intro hasync
    refine ⟨⟨"", []⟩, ⟨defs, [], [""], getBlockPaths defs, []⟩, ?_, rfl, rfl⟩
    simp only [wireApp]
    rw [hst1]
    simp [hasync]
  · intro hasync
    constructor
    · intro hsucc
      have hspec := resolveAsyncGo_spec (defs.map Prod.fst)
        ⟨defs, [], [""], getBlockPaths defs, []⟩
        (fun k _ d hdk hpk =>
          hsucc (k, d) (mem_of_alookup_some _ _ _ hdk) hpk)
      set st1 : AppState := ⟨defs, [], [""], getBlockPaths defs, []⟩ with hs1
      set st2 := (resolveAsyncGo st1 (defs.map Prod.fst)).2 with hs2
      have hpair : resolveAsyncFactories st1 = (.ok (), st2) := by
        unfold resolveAsyncFactories
        have := hspec.1
        cases hres : resolveAsyncGo st1 (defs.map Prod.fst) with
        | mk r s =>
          rw [hres] at this
          simp at this
          rw [this] at hres ⊢
          rw [hs2, hres]
      refine ⟨⟨"", []⟩, st2, ?_, ?_, ?_⟩
      · simp only [wireApp]
        rw [hst1]
        simp only [hasync]
        rw [hs1] at hpair
        simp [hpair]
      · intro kd hkd hasf
        exact hspec.2.2.2.2 kd.1 kd.2
          (alookup_eq_of_mem_nodup defs hnodup kd.1 kd.2 hkd)
          (factory_pred_of_asyncFactory kd.2 hasf)
          (List.mem_map.mpr ⟨kd, hkd, rfl⟩)
      · rw [hs2, hspec.2.2.1]
        simpa using keys_filter_eq_entries_filter defs hnodup
    · intro hex
      obtain ⟨kd, hkd, hasf, hrej⟩ := hex
      have herr := resolveAsyncGo_err (defs.map Prod.fst)
        ⟨defs, [], [""], getBlockPaths defs, []⟩
        ⟨kd.1, List.mem_map.mpr ⟨kd, hkd, rfl⟩, kd.2,
          alookup_eq_of_mem_nodup defs hnodup kd.1 kd.2 hkd,
          factory_pred_of_asyncFactory kd.2 hasf, hrej⟩
      obtain ⟨e, he⟩ := herr
      refine ⟨e, ?_⟩
      simp only [wireApp]
      rw [hst1]
      simp only [hasync]
      unfold resolveAsyncFactories
      cases hres : resolveAsyncGo ⟨defs, [], [""], getBlockPaths defs, []⟩
          (defs.map Prod.fst) with
      | mk r s =>
        rw [hres] at he
        simp at he
        subst he
        simp

theorem c4_witness :
    (∃ inj st, wireApp [("v", plainU)] = .sync inj st
      ∧ st.invocationLog = [] ∧ st.unitCache = [])
    ∧ (∃ inj st, wireApp [("s", facU), ("a", asyncFacU)] = .asyncOk inj st
      ∧ (∀ kd ∈ [("s", facU), ("a", asyncFacU)], isAsyncFactory kd.2 = true →
          alookup st.unitCache kd.1 = some (.callResult kd.2))
      ∧ st.invocationLog
          = ([("s", facU), ("a", asyncFacU)].filter (fun kd =>
              (isFunction kd.2 || isPromise kd.2) && isFactory kd.2)).map
              Prod.fst)
    ∧ (∃ e, wireApp [("bad", ⟨.function, true, true, false, false, true⟩)]
        = .asyncErr e) :=
  ⟨(c4_wireApp_sync_async_duality [("v", plainU)] (by decide)).1 (by decide),
   ((c4_wireApp_sync_async_duality [("s", facU), ("a", asyncFacU)]
      (by decide)).2 (by decide)).1 (by decide),
   ((c4_wireApp_sync_async_duality
      [("bad", ⟨.function, true, true, false, false, true⟩)]
      (by decide)).2 (by decide)).2 (by decide)⟩

/-- C3: private-unit visibility.  A private unit `u` of a non-root
namespace `N`, read through a block proxy whose accessor namespace `M`
differs from `N`, fails with the not-found error (the same error an
absent unit produces); reading it through `N`'s own local (`"."`) proxy
succeeds; and root access (the `""` request) applies no privacy filter:
a private unit `r` declared at the root resolves successfully through
the root view of any injector. -/
theorem c3_private_unit_visibility
    (st : AppState) (N M u r P : String) (d dr : UnitDef)
    (hN : N ≠ "") (hMN : N ≠ M)
    (hd : alookup st.unitDefinitions (N ++ "." ++ u) = some d)
    (hpriv : isPrivate d = true)
    (hsw : strStartsWith (N ++ "." ++ u) (N ++ ".") = true)
    (hlen : (jsSplitDot ((N ++ "." ++ u).drop (N.length + 1))).length = 1)
    (hdrej : isFactory d = true → d.rejects = false)
    (hr : alookup st.unitDefinitions r = some dr)
    (hrpriv : isPrivate dr = true)
    (hrlen : (jsSplitDot r).length = 1)
    (hrrej : isFactory dr = true → dr.rejects = false) :
    (proxyGet st (createBlockProxy st M N) u).1
        = .error (.keyNotFoundInBlock u N)
    ∧ (proxyGet st (createBlockProxy st N N) u).1.isOk = true
    ∧ (proxyGet st (createBlockProxy st P "") r).1.isOk = true := by
  refine ⟨?_, ?_, ?_⟩
  · have hnotmem : (N ++ "." ++ u) ∉ getBlockUnitPaths st M N := by
      unfold getBlockUnitPaths
      simp only [if_neg hN, if_neg hMN]
      intro hcontra
      rw [List.mem_filter] at hcontra
      obtain ⟨-, hpred⟩ := hcontra
      simp [hd, hpriv] at hpred
    unfold proxyGet
    simp [createBlockProxy, alookup, hN, hnotmem]
  · have hmem2 : (N ++ "." ++ u) ∈ getBlockUnitPaths st N N := by
      unfold getBlockUnitPaths
      simp only [if_neg hN, eq_self_iff_true, if_true]
      rw [List.mem_filter]
      exact ⟨alookup_some_mem_keys _ _ _ hd, by simp [hsw, hlen]⟩
    exact proxyGet_ok_of_visible st _ u d rfl
      (by simpa [createBlockProxy, if_neg hN] using hmem2)
      (by simpa [createBlockProxy, if_neg hN] using hd)
      hdrej
  · have hmem3 : r ∈ getBlockUnitPaths st P "" := by
      unfold getBlockUnitPaths
      simp only [eq_self_iff_true, if_true]
      rw [List.mem_filter]
      exact ⟨alookup_some_mem_keys _ _ _ hr, by simp [hrlen]⟩
    exact proxyGet_ok_of_visible st _ r dr rfl
      (by simpa [createBlockProxy] using hmem3)
      (by simpa [createBlockProxy] using hr)
      hrrej

theorem c3_witness :
    (proxyGet ⟨[("n.priv", privFnU), ("rootp", privFnU)], [], [], [], []⟩
        (createBlockProxy
          ⟨[("n.priv", privFnU), ("rootp", privFnU)], [], [], [], []⟩ "b" "n")
        "priv").1 = .error (.keyNotFoundInBlock "priv" "n")
    ∧ (proxyGet ⟨[("n.priv", privFnU), ("rootp", privFnU)], [], [], [], []⟩
        (createBlockProxy
          ⟨[("n.priv", privFnU), ("rootp", privFnU)], [], [], [], []⟩ "n" "n")
        "priv").1.isOk = true
    ∧ (proxyGet ⟨[("n.priv", privFnU), ("rootp", privFnU)], [], [], [], []⟩
        (createBlockProxy
          ⟨[("n.priv", privFnU), ("rootp", privFnU)], [], [], [], []⟩ "q" "")
        "rootp").1.isOk = true :=
  c3_private_unit_visibility
    ⟨[("n.priv", privFnU), ("rootp", privFnU)], [], [], [], []⟩
    "n" "b" "priv" "rootp" "q" privFnU privFnU
    (by decide) (by decide) (by decide) (by decide) (by decide) (by decide)
    (by decide) (by decide) (by decide) (by decide) (by decide)

/-- The absolute path a property read through a proxy resolves to. -/
def proxyKeyOf (p : BlockProxy) (prop : String) : String :=
  if p.ns = "" then prop else p.ns ++ "." ++ prop

/-- Everything a single proxy read can do to the session state and to the
proxy's own micro-cache: the definitions are untouched, existing cache
entries and their invocation counts survive, an invocation count changes
only by one and only for an uncached factory-backed path (which is cached
afterwards unless its payload threw), and every micro-cache entry is
either old or agrees with the global cache. -/
theorem proxyGet_facts (st : AppState) (p : BlockProxy) (prop : String) :
    ((proxyGet st p prop).2.1.unitDefinitions = st.unitDefinitions)
    ∧ ((proxyGet st p prop).2.2.ns = p.ns)
    ∧ (∀ k v, alookup st.unitCache k = some v →
        alookup (proxyGet st p prop).2.1.unitCache k = some v)
    ∧ (∀ k v, alookup st.unitCache k = some v →
        (proxyGet st p prop).2.1.invocationLog.count k
          = st.invocationLog.count k)
    ∧ (∀ k, (proxyGet st p prop).2.1.invocationLog.count k
          = st.invocationLog.count k
        ∨ (alookup st.unitCache k = none
           ∧ (proxyGet st p prop).2.1.invocationLog.count k
              = st.invocationLog.count k + 1
           ∧ ∃ d, alookup st.unitDefinitions k = some d ∧ isFactory d = true
               ∧ (d.rejects = true
                  ∨ (alookup (proxyGet st p prop).2.1.unitCache k).isSome
                      = true)))
    ∧ (∀ prop2 v,
        alookup (proxyGet st p prop).2.2.cachedblock prop2 = some v →
        alookup p.cachedblock prop2 = some v
        ∨ alookup (proxyGet st p prop).2.1.unitCache (proxyKeyOf p prop2)
            = some v) := by
  cases hcb : alookup p.cachedblock prop with
  | some v0 =>
    have hred : proxyGet st p prop = (.ok v0, st, p) := by
      simp only [proxyGet, hcb]
    rw [hred]
    exact ⟨rfl, rfl, fun k v hv => hv, fun k v _ => rfl,
      fun k => Or.inl rfl, fun prop2 v hv => Or.inl hv⟩
  | none =>
    by_cases hmem : (if p.ns = "" then prop else p.ns ++ "." ++ prop)
        ∈ p.unitKeys
    · cases hc : alookup st.unitCache
          (if p.ns = "" then prop else p.ns ++ "." ++ prop) with
      | some cv =>
        have hred : proxyGet st p prop
            = (.ok cv, st,
               { p with
                 cachedblock := objSet p.cachedblock prop cv }) := by
          simp only [proxyGet, hcb, hc, hmem, if_true]
        rw [hred]
        refine ⟨rfl, rfl, fun k v hv => hv, fun k v _ => rfl,
          fun k => Or.inl rfl, ?_⟩
        intro prop2 v hv
        simp only [alookup_objSet] at hv
        by_cases hp2 : prop = prop2
        · subst hp2
          simp only [if_pos rfl] at hv
          refine Or.inr ?_
          simp only [proxyKeyOf]
          rw [hc]
          exact hv
        · simp only [if_neg hp2] at hv
          exact Or.inl hv
      | none =>
        cases hdf : alookup st.unitDefinitions
            (if p.ns = "" then prop else p.ns ++ "." ++ prop) with
        | some d =>
          by_cases hf : isFactory d = true
          · by_cases hr : d.rejects = true
            · have hred : proxyGet st p prop
                  = (.error (.factoryRejected
                      (if p.ns = "" then prop else p.ns ++ "." ++ prop)),
                     { st with invocationLog := st.invocationLog
                        ++ [if p.ns = "" then prop
                            else p.ns ++ "." ++ prop] },
                     p) := by
                simp only [proxyGet, hcb, hc, hdf, hf, hr, hmem, if_true]
              rw [hred]
              refine ⟨rfl, rfl, fun k v hv => hv, ?_, ?_,
                fun prop2 v hv => Or.inl hv⟩
              · intro k v hv
                simp only [List.count_append]
                by_cases hk : k = (if p.ns = "" then prop
                    else p.ns ++ "." ++ prop)
                · rw [← hk] at hc
                  rw [hv] at hc
                  cases hc
                · simp [List.count_singleton, hk]
              · intro k
                by_cases hk : k = (if p.ns = "" then prop
                    else p.ns ++ "." ++ prop)
                · subst hk
                  refine Or.inr ⟨hc, ?_, d, hdf, hf, Or.inl hr⟩
                  simp [List.count_append]
                · refine Or.inl ?_
                  simp [List.count_append, List.count_singleton, hk]
            · rw [Bool.not_eq_true] at hr
              have hred : proxyGet st p prop
                  = (.ok (.defVal d),
                     { st with
                       invocationLog := st.invocationLog
                         ++ [if p.ns = "" then prop
                             else p.ns ++ "." ++ prop],
                       unitCache := objSet st.unitCache
                         (if p.ns = "" then prop else p.ns ++ "." ++ prop)
                         (RVal.callResult d) },
                     { p with cachedblock :=
                        objSet p.cachedblock prop (RVal.callResult d) }) := by
                simp only [proxyGet, hcb, hc, hdf, hf, hr, hmem, if_true]
                simp
              rw [hred]
              refine ⟨rfl, rfl, ?_, ?_, ?_, ?_⟩
              · intro k v hv
                simp only [alookup_objSet]
                by_cases hk : (if p.ns = "" then prop
                    else p.ns ++ "." ++ prop) = k
                · rw [hk] at hc
                  rw [hv] at hc
                  cases hc
                · simp [hk, hv]
              · intro k v hv
                simp only [List.count_append]
                by_cases hk : k = (if p.ns = "" then prop
                    else p.ns ++ "." ++ prop)
                · rw [← hk] at hc
                  rw [hv] at hc
                  cases hc
                · simp [List.count_singleton, hk]
              · intro k
                by_cases hk : k = (if p.ns = "" then prop
                    else p.ns ++ "." ++ prop)
                · subst hk
                  refine Or.inr ⟨hc, by simp [List.count_append], d, hdf, hf,
                    Or.inr ?_⟩
                  simp [alookup_objSet]
                · refine Or.inl ?_
                  simp [List.count_append, List.count_singleton, hk]
              · intro prop2 v hv
                simp only [alookup_objSet] at hv
                by_cases hp2 : prop = prop2
                · subst hp2
                  simp only [if_pos rfl] at hv
                  refine Or.inr ?_
                  simp only [proxyKeyOf, alookup_objSet, if_pos rfl]
                  exact hv
                · simp only [if_neg hp2] at hv
                  exact Or.inl hv
          · rw [Bool.not_eq_true] at hf
            have hred : proxyGet st p prop
                = (.ok (.defVal d),
                   { st with
                     unitCache := objSet st.unitCache
                       (if p.ns = "" then prop else p.ns ++ "." ++ prop)
                       (RVal.defVal d) },
                   { p with
                     cachedblock :=
                       objSet p.cachedblock prop (RVal.defVal d) }) := by
              simp only [proxyGet, hcb, hc, hdf, hf, hmem, if_true]
              simp
            rw [hred]
            refine ⟨rfl, rfl, ?_, fun k v _ => rfl, fun k => Or.inl rfl, ?_⟩
            · intro k v hv
              simp only [alookup_objSet]
              by_cases hk : (if p.ns = "" then prop
                  else p.ns ++ "." ++ prop) = k
              · rw [hk] at hc
                rw [hv] at hc
                cases hc
              · simp [hk, hv]
            · intro prop2 v hv
              simp only [alookup_objSet] at hv
              by_cases hp2 : prop = prop2
              · subst hp2
                simp only [if_pos rfl] at hv
                refine Or.inr ?_
                simp only [proxyKeyOf, alookup_objSet, if_pos rfl]
                exact hv
              · simp only [if_neg hp2] at hv
                exact Or.inl hv
        | none =>
          have hred : proxyGet st p prop
              = (.ok .undef,
                 { st with
                   unitCache := objSet st.unitCache
                     (if p.ns = "" then prop else p.ns ++ "." ++ prop)
                     RVal.undef },
                 { p with
                   cachedblock :=
                     objSet p.cachedblock prop RVal.undef }) := by
            simp only [proxyGet, hcb, hc, hdf, hmem, if_true]
          rw [hred]
          refine ⟨rfl, rfl, ?_, fun k v _ => rfl, fun k => Or.inl rfl, ?_⟩
          · intro k v hv
            simp only [alookup_objSet]
            by_cases hk : (if p.ns = "" then prop
                else p.ns ++ "." ++ prop) = k
            · rw [hk] at hc
              rw [hv] at hc
              cases hc
            · simp [hk, hv]
          · intro prop2 v hv
            simp only [alookup_objSet] at hv
            by_cases hp2 : prop = prop2
            · subst hp2
              simp only [if_pos rfl] at hv
              refine Or.inr ?_
              simp only [proxyKeyOf, alookup_objSet, if_pos rfl]
              exact hv
            · simp only [if_neg hp2] at hv
              exact Or.inl hv
    · have hred : proxyGet st p prop
          = (.error (.keyNotFoundInBlock prop p.ns), st, p) := by
        simp only [proxyGet, hcb]
        rw [if_neg hmem]
      rw [hred]
      exact ⟨rfl, rfl, fun k v hv => hv, fun k v _ => rfl,
        fun k => Or.inl rfl, fun prop2 v hv => Or.inl hv⟩

/-- `generateInjector` never touches definitions, cache, or log. -/
theorem generateInjector_st (st : AppState) (parent : String) :
    (generateInjector st parent).2.unitDefinitions = st.unitDefinitions
    ∧ (generateInjector st parent).2.unitCache = st.unitCache
    ∧ (generateInjector st parent).2.invocationLog = st.invocationLog := by
  unfold generateInjector
  by_cases h : parent ∈ st.takenInjectorsKeys <;> simp [h]

/-- `callInjector` never touches the module state, and any proxy in the
resulting arena is either an old one or freshly created with an empty
micro-cache. -/
theorem callInjector_facts (w : World) (inj : Injector) (key : Option String) :
    (callInjector w inj key).2.2.st = w.st
    ∧ ∀ p ∈ (callInjector w inj key).2.2.blockProxies,
        p ∈ w.blockProxies ∨ p.cachedblock = [] := by
  constructor
  · simp only [callInjector]
    cases hl : alookup inj.localCache (key.getD "") with
    | some idx => rfl
    | none =>
      repeat (first | rfl | split)
  · simp only [callInjector]
    cases hl : alookup inj.localCache (key.getD "") with
    | some idx => exact fun p hp => Or.inl hp
    | none =>
      repeat' split
      all_goals intro p hp
      all_goals simp at hp
      all_goals
        first
          | exact Or.inl hp
          | (rcases hp with hp | rfl
             exacts [Or.inl hp, Or.inr rfl])

/-- Existing cache entries and their invocation counts survive any single
interaction with the session. -/
theorem step_cache_count_stable (w : World) (op : Op) (k : String) (v : RVal)
    (h : alookup w.st.unitCache k = some v) :
    alookup (w.step op).st.unitCache k = some v
    ∧ (w.step op).st.invocationLog.count k = w.st.invocationLog.count k := by
  cases op with
  | newInjector parent =>
    have hg := generateInjector_st w.st parent
    simp only [World.step]
    cases hres : generateInjector w.st parent with
    | mk r st1 =>
      rw [hres] at hg
      simp only at hg
      cases r with
      | ok inj =>
        refine ⟨?_, ?_⟩
        · show alookup st1.unitCache k = some v
          rw [hg.2.1]
          exact h
        · show st1.invocationLog.count k = w.st.invocationLog.count k
          rw [hg.2.2]
      | error e =>
        refine ⟨?_, ?_⟩
        · show alookup st1.unitCache k = some v
          rw [hg.2.1]
          exact h
        · show st1.invocationLog.count k = w.st.invocationLog.count k
          rw [hg.2.2]
  | callInj i blockKey =>
    cases hres : w.injectors.get? i with
    | none =>
      simp only [World.step, hres]
      exact ⟨h, trivial⟩
    | some inj =>
      simp only [World.step, hres]
      have hc := callInjector_facts w inj blockKey
      cases hcall : callInjector w inj blockKey with
      | mk r rest =>
        obtain ⟨inj1, w1⟩ := rest
        rw [hcall] at hc
        refine ⟨?_, ?_⟩
        · show alookup w1.st.unitCache k = some v
          rw [show w1.st = w.st from hc.1]
          exact h
        · show w1.st.invocationLog.count k = w.st.invocationLog.count k
          rw [show w1.st = w.st from hc.1]
  | access j prop =>
    cases hres : w.blockProxies.get? j with
    | none =>
      simp only [World.step, hres]
      exact ⟨h, trivial⟩
    | some p =>
      simp only [World.step, hres]
      have hf := proxyGet_facts w.st p prop
      cases hget : proxyGet w.st p prop with
      | mk r rest =>
        obtain ⟨st1, p1⟩ := rest
        rw [hget] at hf
        refine ⟨?_, ?_⟩
        · show alookup st1.unitCache k = some v
          exact hf.2.2.1 k v h
        · show st1.invocationLog.count k = w.st.invocationLog.count k
          exact hf.2.2.2.1 k v h

/-- The session invariant: the definitions are those of the wiring call;
a path with no definition is never invoked; a path whose payload does not
throw is invoked at most once and, once invoked, cached; every proxy
micro-cache entry agrees with the global cache. -/
def WorldInv (defs : List (String × UnitDef)) (w : World) : Prop :=
  w.st.unitDefinitions = defs
  ∧ (∀ k, alookup defs k = none → w.st.invocationLog.count k = 0)
  ∧ (∀ k d, alookup defs k = some d → d.rejects = false →
      w.st.invocationLog.count k ≤ 1
      ∧ (1 ≤ w.st.invocationLog.count k →
          (alookup w.st.unitCache k).isSome = true))
  ∧ (∀ p ∈ w.blockProxies, ∀ prop v,
      alookup p.cachedblock prop = some v →
      alookup w.st.unitCache (proxyKeyOf p prop) = some v)

/-- Every interaction preserves the session invariant. -/
theorem step_preserves_inv (defs : List (String × UnitDef)) (w : World)
    (op : Op) (hinv : WorldInv defs w) : WorldInv defs (w.step op) := by
  obtain ⟨hdefs, hnone, honce, hblocks⟩ := hinv
  cases op with
  | newInjector parent =>
    have hg := generateInjector_st w.st parent
    simp only [World.step]
    cases hres : generateInjector w.st parent with
    | mk r st1 =>
      rw [hres] at hg
      simp only at hg
      cases r with
      | ok inj =>
        refine ⟨?_, ?_, ?_, ?_⟩
        · show st1.unitDefinitions = defs
          rw [hg.1]
          exact hdefs
        · intro k hk
          show st1.invocationLog.count k = 0
          rw [hg.2.2]
          exact hnone k hk
        · intro k d hk hr
          show st1.invocationLog.count k ≤ 1
            ∧ (1 ≤ st1.invocationLog.count k →
                (alookup st1.unitCache k).isSome = true)
          rw [hg.2.2, hg.2.1]
          exact honce k d hk hr
        · intro p hp prop v hv
          show alookup st1.unitCache (proxyKeyOf p prop) = some v
          rw [hg.2.1]
          exact hblocks p hp prop v hv
      | error e =>
        refine ⟨?_, ?_, ?_, ?_⟩
        · show st1.unitDefinitions = defs
          rw [hg.1]
          exact hdefs
        · intro k hk
          show st1.invocationLog.count k = 0
          rw [hg.2.2]
          exact hnone k hk
        · intro k d hk hr
          show st1.invocationLog.count k ≤ 1
            ∧ (1 ≤ st1.invocationLog.count k →
                (alookup st1.unitCache k).isSome = true)
          rw [hg.2.2, hg.2.1]
          exact honce k d hk hr
        · intro p hp prop v hv
          show alookup st1.unitCache (proxyKeyOf p prop) = some v
          rw [hg.2.1]
          exact hblocks p hp prop v hv
  | callInj i blockKey =>
    cases hres : w.injectors.get? i with
    | none =>
      simp only [World.step, hres]
      exact ⟨hdefs, hnone, honce, hblocks⟩
    | some inj =>
      simp only [World.step, hres]
      have hc := callInjector_facts w inj blockKey
      cases hcall : callInjector w inj blockKey with
      | mk r rest =>
        obtain ⟨inj1, w1⟩ := rest
        rw [hcall] at hc
        have hst : w1.st = w.st := hc.1
        refine ⟨?_, ?_, ?_, ?_⟩
        · show w1.st.unitDefinitions = defs
          rw [hst]
          exact hdefs
        · intro k hk
          show w1.st.invocationLog.count k = 0
          rw [hst]
          exact hnone k hk
        · intro k d hk hr
          show w1.st.invocationLog.count k ≤ 1
            ∧ (1 ≤ w1.st.invocationLog.count k →
                (alookup w1.st.unitCache k).isSome = true)
          rw [hst]
          exact honce k d hk hr
        · intro p hp prop v hv
          show alookup w1.st.unitCache (proxyKeyOf p prop) = some v
          rw [hst]
          have hp2 : p ∈ w1.blockProxies := hp
          rcases hc.2 p hp2 with hpo | hpe
          · exact hblocks p hpo prop v hv
          · rw [hpe] at hv
            simp [alookup] at hv
  | access j prop =>
    cases hres : w.blockProxies.get? j with
    | none =>
      simp only [World.step, hres]
      exact ⟨hdefs, hnone, honce, hblocks⟩
    | some p =>
      simp only [World.step, hres]
      have hmem : p ∈ w.blockProxies := List.get?_mem hres
      have hf := proxyGet_facts w.st p prop
      cases hget : proxyGet w.st p prop with
      | mk r rest =>
        obtain ⟨st1, p1⟩ := rest
        rw [hget] at hf
        have hfdefs : st1.unitDefinitions = w.st.unitDefinitions := hf.1
        have hfns : p1.ns = p.ns := hf.2.1
        have hfcache : ∀ k v, alookup w.st.unitCache k = some v →
            alookup st1.unitCache k = some v := hf.2.2.1
        have hfcount : ∀ k v, alookup w.st.unitCache k = some v →
            st1.invocationLog.count k = w.st.invocationLog.count k :=
          hf.2.2.2.1
        have hfdisc : ∀ k, st1.invocationLog.count k
              = w.st.invocationLog.count k
            ∨ (alookup w.st.unitCache k = none
               ∧ st1.invocationLog.count k = w.st.invocationLog.count k + 1
               ∧ ∃ d, alookup w.st.unitDefinitions k = some d
                   ∧ isFactory d = true
                   ∧ (d.rejects = true
                      ∨ (alookup st1.unitCache k).isSome = true)) :=
          hf.2.2.2.2.1
        have hfcb : ∀ prop2 v, alookup p1.cachedblock prop2 = some v →
            alookup p.cachedblock prop2 = some v
            ∨ alookup st1.unitCache (proxyKeyOf p prop2) = some v :=
          hf.2.2.2.2.2
        refine ⟨?_, ?_, ?_, ?_⟩
        · show st1.unitDefinitions = defs
          rw [hfdefs]
          exact hdefs
        · intro k hk
          show st1.invocationLog.count k = 0
          rcases hfdisc k with hsame | ⟨-, -, d, hd, -, -⟩
          · rw [hsame]
            exact hnone k hk
          · rw [hdefs] at hd
            rw [hk] at hd
            cases hd
        · intro k d hk hr
          show st1.invocationLog.count k ≤ 1
            ∧ (1 ≤ st1.invocationLog.count k →
                (alookup st1.unitCache k).isSome = true)
          rcases hfdisc k with hsame | ⟨hcn, hcnt, d2, hd2, -, hrest⟩
          · rw [hsame]
            refine ⟨(honce k d hk hr).1, ?_⟩
            intro hge
            obtain ⟨v, hv⟩ := Option.isSome_iff_exists.mp
              ((honce k d hk hr).2 hge)
            rw [hfcache k v hv]
            rfl
          · have hd2' : d2 = d := by
              rw [hdefs] at hd2
              rw [hk] at hd2
              injection hd2 with hx
              exact hx.symm
            subst hd2'
            have hcount0 : w.st.invocationLog.count k = 0 := by
              by_contra hne
              have hge : 1 ≤ w.st.invocationLog.count k := by omega
              have hs := (honce k d2 hk hr).2 hge
              rw [hcn] at hs
              simp at hs
            rw [hcnt, hcount0]
            refine ⟨by omega, fun _ => ?_⟩
            rcases hrest with hrej | hsome
            · rw [hrej] at hr
              cases hr
            · exact hsome
        · intro p2 hp2 prop2 v hv
          show alookup st1.unitCache (proxyKeyOf p2 prop2) = some v
          have hp2' : p2 ∈ w.blockProxies.set j p1 := hp2
          rcases List.mem_or_eq_of_mem_set hp2' with hp2o | hp2e
          · exact hfcache _ v (hblocks p2 hp2o prop2 v hv)
          · subst hp2e
            have hkeq : proxyKeyOf p2 prop2 = proxyKeyOf p prop2 := by
              simp [proxyKeyOf, hfns]
            rw [hkeq]
            rcases hfcb prop2 v hv with hold | hnew
            · exact hfcache _ v (hblocks p hmem prop2 v hold)
            · exact hnew

theorem run_preserves_inv (defs : List (String × UnitDef)) (w : World)
    (ops : List Op) (hinv : WorldInv defs w) : WorldInv defs (w.run ops) := by
  induction ops generalizing w with
  | nil => exact hinv
  | cons op ops ih => exact ih (w.step op) (step_preserves_inv defs w op hinv)

theorem run_cache_count_stable (w : World) (ops : List Op) (k : String)
    (v : RVal) (h : alookup w.st.unitCache k = some v) :
    alookup (w.run ops).st.unitCache k = some v
    ∧ (w.run ops).st.invocationLog.count k = w.st.invocationLog.count k := by
  induction ops generalizing w with
  | nil => exact ⟨h, rfl⟩
  | cons op ops ih =>
    have hs := step_cache_count_stable w op k v h
    have hr := ih (w.step op) hs.1
    exact ⟨hr.1, hr.2.trans hs.2⟩

/-- A successful proxy read of a path whose value is already in the global
cache (with a proxy micro-cache that agrees with the global cache) returns
exactly the cached value. -/
theorem proxyGet_ok_agrees (st : AppState) (p : BlockProxy) (prop : String)
    (v : RVal)
    (hC : ∀ prop2 v2, alookup p.cachedblock prop2 = some v2 →
        alookup st.unitCache (proxyKeyOf p prop2) = some v2)
    (hv : alookup st.unitCache (proxyKeyOf p prop) = some v)
    (r : RVal) (hr : (proxyGet st p prop).1 = .ok r) : r = v := by
  have hv' : alookup st.unitCache
      (if p.ns = "" then prop else p.ns ++ "." ++ prop) = some v := by
    simpa [proxyKeyOf] using hv
  cases hcb : alookup p.cachedblock prop with
  | some v0 =>
    have hred : proxyGet st p prop = (.ok v0, st, p) := by
      simp only [proxyGet, hcb]
    rw [hred] at hr
    have hr' : Res.ok v0 = Res.ok r := hr
    injection hr' with hx
    have h0 := hC prop v0 hcb
    rw [hv] at h0
    injection h0 with hy
    rw [← hx, hy]
  | none =>
    by_cases hmem : (if p.ns = "" then prop else p.ns ++ "." ++ prop)
        ∈ p.unitKeys
    · have hred : proxyGet st p prop
          = (.ok v, st,
             { p with
               cachedblock := objSet p.cachedblock prop v }) := by
        simp only [proxyGet, hcb, hv', hmem, if_true]
      rw [hred] at hr
      have hr' : Res.ok v = Res.ok r := hr
      injection hr' with hx
      exact hx.symm
    · have hred : proxyGet st p prop
          = (.error (.keyNotFoundInBlock prop p.ns), st, p) := by
        simp only [proxyGet, hcb]
        rw [if_neg hmem]
      rw [hred] at hr
      have hr' : Res.error (DIError.keyNotFoundInBlock prop p.ns)
          = Res.ok r := hr
      cases hr'

/-- A pre-resolution pass that succeeded invoked no rejecting factory. -/
theorem resolveAsyncGo_ok_no_rejects (ks : List String) (st : AppState)
    (hok : (resolveAsyncGo st ks).1 = .ok ()) :
    ∀ k ∈ ks, ∀ d, alookup st.unitDefinitions k = some d →
      ((isFunction d || isPromise d) && isFactory d) = true →
      d.rejects = false := by
  induction ks generalizing st with
  | nil => simp
  | cons k0 rest ih =>
    cases hd0 : alookup st.unitDefinitions k0 with
    | none =>
      have heq : resolveAsyncGo st (k0 :: rest) = resolveAsyncGo st rest := by
        simp only [resolveAsyncGo, hd0]
      rw [heq] at hok
      intro k hk d hdk hpk
      rcases List.mem_cons.mp hk with rfl | htl
      · rw [hdk] at hd0
        cases hd0
      · exact ih st hok k htl d hdk hpk
    | some d0 =>
      by_cases hp : ((isFunction d0 || isPromise d0) && isFactory d0) = true
      · by_cases hrj : d0.rejects = true
        · exfalso
          have : (resolveAsyncGo st (k0 :: rest)).1
              = .error (.factoryRejected k0) := by
            simp only [resolveAsyncGo, hd0]
            simp [hp, hrj]
          rw [this] at hok
          cases hok
        · rw [Bool.not_eq_true] at hrj
          have heq : resolveAsyncGo st (k0 :: rest)
              = resolveAsyncGo
                  { st with
                    invocationLog := st.invocationLog ++ [k0],
                    unitCache :=
                      objSet st.unitCache k0 (RVal.callResult d0) } rest := by
            simp only [resolveAsyncGo, hd0]
            simp [hp, hrj]
          rw [heq] at hok
          intro k hk d hdk hpk
          rcases List.mem_cons.mp hk with rfl | htl
          · rw [hdk] at hd0
            obtain rfl : d = d0 := by
              injection hd0
            exact hrj
          · exact ih _ hok k htl d hdk hpk
      · have heq : resolveAsyncGo st (k0 :: rest) = resolveAsyncGo st rest := by
          simp only [resolveAsyncGo, hd0]
          simp [hp]
        rw [heq] at hok
        intro k hk d hdk hpk
        rcases List.mem_cons.mp hk with rfl | htl
        · rw [hdk] at hd0
          obtain rfl : d = d0 := by
            injection hd0
          exact absurd hpk hp
        · exact ih st hok k htl d hdk hpk

/-- The world a wiring call hands out satisfies the session invariant. -/
theorem initialWorld_inv (defs : List (String × UnitDef)) (w0 : World)
    (hnodup : (defs.map Prod.fst).Nodup)
    (h : initialWorld defs = some w0) : WorldInv defs w0 := by
  have hst1 : generateInjector
      ⟨defs, [], [], getBlockPaths defs, []⟩ ""
      = (.ok ⟨"", []⟩, ⟨defs, [], [""], getBlockPaths defs, []⟩) := by
    simp [generateInjector]
  simp only [initialWorld, wireApp] at h
  rw [hst1] at h
  by_cases hasync : hasAsyncKeys defs
  · simp only [hasync] at h
    cases hres : resolveAsyncFactories ⟨defs, [], [""], getBlockPaths defs, []⟩
      with
    | mk r st2 =>
      rw [hres] at h
      cases r with
      | error e => simp at h
      | ok u =>
        simp only at h
        injection h with h
        subst h
        obtain rfl : u = () := rfl
        have hok1 : (resolveAsyncGo ⟨defs, [], [""], getBlockPaths defs, []⟩
            (defs.map Prod.fst)).1 = .ok () := by
          have : resolveAsyncGo ⟨defs, [], [""], getBlockPaths defs, []⟩
              (defs.map Prod.fst)
              = resolveAsyncFactories ⟨defs, [], [""], getBlockPaths defs, []⟩
              := rfl
          rw [this, hres]
        have hnorej := resolveAsyncGo_ok_no_rejects (defs.map Prod.fst)
          ⟨defs, [], [""], getBlockPaths defs, []⟩ hok1
        have hspec := resolveAsyncGo_spec (defs.map Prod.fst)
          ⟨defs, [], [""], getBlockPaths defs, []⟩ hnorej
        have hst2 : st2 = (resolveAsyncGo
            ⟨defs, [], [""], getBlockPaths defs, []⟩ (defs.map Prod.fst)).2
            := by
          have : resolveAsyncGo ⟨defs, [], [""], getBlockPaths defs, []⟩
              (defs.map Prod.fst)
              = resolveAsyncFactories ⟨defs, [], [""], getBlockPaths defs, []⟩
              := rfl
          rw [this, hres]
        have hlog : st2.invocationLog
            = (defs.map Prod.fst).filter (fun k =>
                match alookup defs k with
                | some d => (isFunction d || isPromise d) && isFactory d
                | none => false) := by
          rw [hst2, hspec.2.2.1]
          simp
        have hdefs2 : st2.unitDefinitions = defs := by
          rw [hst2, hspec.2.1]
        refine ⟨hdefs2, ?_, ?_, ?_⟩
        · intro k hk
          show st2.invocationLog.count k = 0
          rw [hlog]
          rw [List.count_eq_zero]
          intro hmem
          have hpred := (List.mem_filter.mp hmem).2
          rw [hk] at hpred
          simp at hpred
        · intro k d hk hrj
          show st2.invocationLog.count k ≤ 1
            ∧ (1 ≤ st2.invocationLog.count k →
                (alookup st2.unitCache k).isSome = true)
          have hcnt : st2.invocationLog.count k ≤ 1 := by
            rw [hlog]
            have hnd : ((defs.map Prod.fst).filter (fun k =>
                match alookup defs k with
                | some d => (isFunction d || isPromise d) && isFactory d
                | none => false)).Nodup :=
              List.Nodup.sublist (List.filter_sublist _) hnodup
            exact List.nodup_iff_count_le_one.mp hnd k
          refine ⟨hcnt, ?_⟩
          intro hge
          have hmem : k ∈ (defs.map Prod.fst).filter (fun k =>
              match alookup defs k with
              | some d => (isFunction d || isPromise d) && isFactory d
              | none => false) := by
            rw [← hlog]
            exact List.count_pos_iff_mem.mp (by omega)
          obtain ⟨hks, hpred⟩ := List.mem_filter.mp hmem
          rw [hk] at hpred
          simp only at hpred
          have hcm := hspec.2.2.2.2 k d (by exact hk) hpred hks
          rw [← hst2] at hcm
          rw [hcm]
          rfl
        · intro p hp prop v hv
          exact absurd hp (List.not_mem_nil p)
  · rw [Bool.not_eq_true] at hasync
    simp only [hasync, Bool.not_false, if_true] at h
    injection h with h
    subst h
    refine ⟨rfl, ?_, ?_, ?_⟩
    · intro k _
      simp [List.count_nil]
    · intro k d _ _
      constructor
      · simp [List.count_nil]
      · intro hge
        simp [List.count_nil] at hge
    · intro p hp prop v hv
      exact absurd hp (List.not_mem_nil p)

/-- C2: within one wiring session (no mocking), along any sequence of
interactions, the factory payload at an absolute path whose payload does
not throw is invoked at most once globally; once a value is cached for a
path, any further sequence of interactions leaves that cache entry intact
and causes no further invocation of that path; and any successful read of
that path — through any block proxy — returns exactly the cached value. -/
theorem c2_resolution_idempotent
    (defs : List (String × UnitDef)) (w0 : World) (ops ops2 : List Op)
    (key : String) (j : Nat) (prop : String)
    (hnodup : (defs.map Prod.fst).Nodup)
    (hw0 : initialWorld defs = some w0)
    (hok : ∀ kd ∈ defs, kd.1 = key → kd.2.rejects = false) :
    countInv (w0.run ops) key ≤ 1
    ∧ (∀ v, alookup (w0.run ops).st.unitCache key = some v →
        alookup ((w0.run ops).run ops2).st.unitCache key = some v
        ∧ countInv ((w0.run ops).run ops2) key = countInv (w0.run ops) key)
    ∧ (∀ v r, alookup (w0.run ops).st.unitCache key = some v →
        proxyFinalKey (w0.run ops) j prop = some key →
        accessResult (w0.run ops) j prop = .ok r → r = v) := by
  have hinv := run_preserves_inv defs w0 ops
    (initialWorld_inv defs w0 hnodup hw0)
  obtain ⟨hdefs, hnone, honce, hblocks⟩ := hinv
  refine ⟨?_, ?_, ?_⟩
  · cases hdk : alookup defs key with
    | none =>
      show (w0.run ops).st.invocationLog.count key ≤ 1
      rw [hnone key hdk]
      omega
    | some d =>
      have hrj : d.rejects = false :=
        hok (key, d) (mem_of_alookup_some defs key d hdk) rfl
      exact (honce key d hdk hrj).1
  · intro v hv
    exact run_cache_count_stable (w0.run ops) ops2 key v hv
  · intro v r hv hfk hacc
    cases hp : (w0.run ops).blockProxies.get? j with
    | none =>
      rw [proxyFinalKey, hp] at hfk
      cases hfk
    | some p =>
      have hpm : p ∈ (w0.run ops).blockProxies := List.get?_mem hp
      have hkey : proxyKeyOf p prop = key := by
        rw [proxyFinalKey, hp] at hfk
        simpa [proxyKeyOf] using hfk
      have hC : ∀ prop2 v2, alookup p.cachedblock prop2 = some v2 →
          alookup (w0.run ops).st.unitCache (proxyKeyOf p prop2) = some v2 :=
        hblocks p hpm
      have hv2 : alookup (w0.run ops).st.unitCache (proxyKeyOf p prop)
          = some v := by
        rw [hkey]
        exact hv
      have hr : (proxyGet (w0.run ops).st p prop).1 = .ok r := by
        rw [accessResult, hp] at hacc
        exact hacc
      exact proxyGet_ok_agrees (w0.run ops).st p prop v hC hv2 r hr

theorem c2_witness :
    countInv
      (World.run ⟨wiredSt1, [⟨"", []⟩], [], []⟩
        [Op.callInj 0 none, Op.access 0 "a", Op.access 0 "a"]) "a" ≤ 1 :=
  (c2_resolution_idempotent [("a", facU)] ⟨wiredSt1, [⟨"", []⟩], [], []⟩
    [Op.callInj 0 none, Op.access 0 "a", Op.access 0 "a"] [] "a" 0 "a"
    (by decide) (by decide) (by decide)).1

/-- C9: the claim says the wrapper built by `mockInjection` restores the
previously active unit definitions, cache and block paths on every exit
path, including when the wrapped callable throws.  The source has no
try/finally: the restore assignments sit after the call, so a throw skips
them and the substitute definitions and block paths stay active.  This
theorem evaluates the wrapper on a callable that throws and shows the
swapped state leaking. -/
theorem c9_throw_skips_restore :
    (mockInjection (fun st => (.error (.factoryRejected "boom"), st))
        units9 st9).1 = .error (.factoryRejected "boom")
    ∧ (mockInjection (fun st => (.error (.factoryRejected "boom"), st))
        units9 st9).2.unitDefinitions = units9
    ∧ (mockInjection (fun st => (.error (.factoryRejected "boom"), st))
        units9 st9).2.unitDefinitions ≠ st9.unitDefinitions
    ∧ (mockInjection (fun st => (.error (.factoryRejected "boom"), st))
        units9 st9).2.blockPaths = ["b"]
    ∧ st9.blockPaths = [] := by
  decide

end Wiremap
